import Mathlib

/-! # cpp-concepts: the task pool, `dijkstra` and the small algorithms

A shallow embedding of `examples/advanced/thread_pool/thread_pool.h`, of
`dijkstra` from `examples/advanced/dsa/dsa.h`, of `MemoryPool` from
`examples/memory_pools/memory_pools_demo.cpp`, of the sums and loops of
`examples/performance_optimization/performance_optimization_demo.cpp`, of the
sorting strategies of `examples/design_patterns/design_patterns_demo.cpp` and
of the compile-time functions of `examples/advanced/templates/templates_demo.cpp`
and `examples/template_metaprogramming/template_metaprogramming_demo.cpp`.
-/

/-! ## The pool as a transition system

`ThreadPool` is embedded as a state together with one function per atomic
action.  Everything a worker does between taking and releasing the mutex `m`
is one action; running a claimed job is one action (the job only touches its
own packaged task).

* `std::packaged_task<R()>` objects live in `heap`; the `shared_ptr` captured
  by the queued lambda `[task]() { (*task)(); }` and the `std::future` given
  back by `submit` are both the index of the packaged task in `heap`.
* `cv.wait(lk, pred)` is embedded by enabledness: the worker's locked section
  can run exactly when `pred` holds, otherwise the worker stays where it is.
* `claimLog` and `runLog` are history variables: they record which worker
  claimed / invoked which job and are never read by the code.
* Of the destruction of the pool, the destructor body (`dtor`) and the stop
  requests issued when the `jthread`s are destroyed (`request_stop`) are
  embedded.  The destruction of the other members is not.  The members are
  declared in the order `workers`, `tasks`, `m`, `cv`, `stopping`, so after the
  destructor body the code destroys `cv`, `m` and `tasks`, and with `tasks`
  the unclaimed jobs and their packaged tasks, before the `jthread`s are
  stopped and joined.  No statement below draws on the contents of `tasks` or
  `heap` in a state that comes after `dtor`, nor on `dtor` applied twice: an
  object is destroyed once.
-/

/-- Error kinds of the pool interface.  The source raises neither of them. -/
inductive PoolError where
  | InvalidConfiguration
  | PoolShuttingDown
  deriving DecidableEq, Repr

/-- A `std::packaged_task<R()>` with its shared state: the bound callable and
the result slot read by the future (`none` while pending). -/
structure PackagedTask (E V : Type) where
  fn : Unit → Except E V
  result : Option (Except E V)

/-- Control point of a worker inside `worker_loop`. -/
inductive Pc where
  /-- about to evaluate `while (!st.stop_requested())` -/
  | loopHead
  /-- inside `cv.wait(lk, ...)` -/
  | waiting
  /-- lock released, about to run `if (job) job();` with this `job` -/
  | running (job : Option Nat)
  /-- left the `while` loop; the thread has finished -/
  | exited
  deriving DecidableEq, Repr

/-- The job a worker holds at a control point: the local `job` once it has
been moved out of the queue. -/
def Pc.job : Pc → Option Nat
  | Pc.running job => job
  | _ => none

/-- One `std::jthread` of `workers`: where it is in `worker_loop`, and whether
a stop has been requested on its stop token. -/
structure Worker where
  pc : Pc
  stop : Bool
  deriving DecidableEq, Repr

/-- Members of `class ThreadPool` (the mutex and the condition variable are
embedded in the atomicity of the actions), the packaged tasks created by
`submit`, and the history variables. -/
structure ThreadPool (E V : Type) where
  workers : List Worker
  tasks : List Nat
  stopping : Bool
  heap : List (PackagedTask E V)
  terminated : Bool
  claimLog : List (Nat × Nat)
  runLog : List (Nat × Nat)

namespace ThreadPool

variable {E V : Type}

/-- `explicit ThreadPool(size_t n)`: start `n` workers, each at the top of
`worker_loop`.  There is no failing path. -/
def ctor (n : Nat) : Except PoolError (ThreadPool E V) :=
  Except.ok
    { workers := List.replicate n { pc := Pc.loopHead, stop := false }
      tasks := []
      stopping := false
      heap := []
      terminated := false
      claimLog := []
      runLog := [] }

/-- `~ThreadPool()` body (thread_pool.h:19-26) and nothing more: set `stopping`
under the lock, then `notify_all`.  The destruction of the members that
follows the body is not part of this function; the stop requests of the
`jthread`s are `request_stop`. -/
def dtor (p : ThreadPool E V) : ThreadPool E V :=
  { p with stopping := true }

/-- `request_stop()` on the stop source of worker `i`, issued by the
destructor of `std::jthread` when `workers` is destroyed. -/
def request_stop (p : ThreadPool E V) (i : Nat) : ThreadPool E V :=
  match p.workers[i]? with
  | none => p
  | some w => { p with workers := p.workers.set i { w with stop := true } }

/-- `submit(f, args...)`: bind the callable to its arguments in a fresh
packaged task, push the job that runs it at the back of `tasks`, and return
the future.  There is no failing path and `stopping` is not read. -/
def submit {A : Type} (p : ThreadPool E V) (f : A → Except E V) (a : A) :
    Except PoolError (ThreadPool E V × Nat) :=
  let task := p.heap.length
  Except.ok
    ({ p with
        heap := p.heap ++ [{ fn := fun _ => f a, result := none }]
        tasks := p.tasks ++ [task] },
     task)

/-- `std::future::get` as an observation: the stored outcome, `none` while the
caller would still block. -/
def get (p : ThreadPool E V) (fut : Nat) : Option (Except E V) :=
  match p.heap[fut]? with
  | none => none
  | some t => t.result

/-- Overwrite the control point of worker `i`. -/
def setPc (p : ThreadPool E V) (i : Nat) (pc : Pc) : ThreadPool E V :=
  match p.workers[i]? with
  | none => p
  | some w => { p with workers := p.workers.set i { w with pc := pc } }

/-- `job()` run by worker `i`, i.e. `(*task)()` on packaged task `task`: a
pending task runs its callable and stores the outcome; a task whose result is
already set throws `future_error`, which leaves the thread function and ends
the process. -/
def invoke (p : ThreadPool E V) (i task : Nat) : ThreadPool E V :=
  match p.heap[task]? with
  | some t =>
    match t.result with
    | none =>
      { p with
          heap := p.heap.set task { t with result := some (t.fn ()) }
          runLog := p.runLog ++ [(i, task)] }
    | some _ => { p with terminated := true, runLog := p.runLog ++ [(i, task)] }
  | none => { p with terminated := true, runLog := p.runLog ++ [(i, task)] }

/-- One atomic action of worker `i` in `worker_loop`. -/
def worker_loop (p : ThreadPool E V) (i : Nat) : ThreadPool E V :=
  match p.workers[i]? with
  | none => p
  | some w =>
    match w.pc with
    | Pc.loopHead =>
      if w.stop then p.setPc i Pc.exited else p.setPc i Pc.waiting
    | Pc.waiting =>
      if p.stopping || !p.tasks.isEmpty || w.stop then
        match p.tasks with
        | [] => p.setPc i Pc.loopHead
        | job :: rest =>
          { p with
              tasks := rest
              workers := p.workers.set i { w with pc := Pc.running (some job) }
              claimLog := p.claimLog ++ [(i, job)] }
      else p
    | Pc.running job =>
      match job with
      | none => p.setPc i Pc.loopHead
      | some task => (p.invoke i task).setPc i Pc.loopHead
    | Pc.exited => p

end ThreadPool

/-- Actions the environment and the scheduler can take on a pool. -/
inductive PoolAction (E V : Type) where
  | submit (f : Unit → Except E V)
  | dtor
  | request_stop (i : Nat)
  | worker (i : Nat)

/-- Whether the action is a stop request to a worker thread. -/
def PoolAction.isRequestStop {E V : Type} : PoolAction E V → Bool
  | PoolAction.request_stop _ => true
  | _ => false

namespace ThreadPool

variable {E V : Type}

/-- Effect of one action.  After `std::terminate` nothing runs any more. -/
def step (p : ThreadPool E V) (a : PoolAction E V) : ThreadPool E V :=
  if p.terminated then p
  else
    match a with
    | PoolAction.submit f =>
      match p.submit f () with
      | Except.ok (q, _) => q
      | Except.error _ => p
    | PoolAction.dtor => p.dtor
    | PoolAction.request_stop i => p.request_stop i
    | PoolAction.worker i => p.worker_loop i

/-- Run a schedule, left to right. -/
def exec (p : ThreadPool E V) (acts : List (PoolAction E V)) : ThreadPool E V :=
  acts.foldl step p

/-- Jobs held by workers that have claimed but not yet finished running them. -/
def inflight (p : ThreadPool E V) : List Nat :=
  p.workers.filterMap fun w => w.pc.job

end ThreadPool

/-- The callables handed to `submit` along a schedule, in submission order. -/
def submitted {E V : Type} (acts : List (PoolAction E V)) : List (Unit → Except E V) :=
  acts.filterMap fun a =>
    match a with
    | PoolAction.submit f => some f
    | _ => none

/-- Invariant of the pool: the process has not been terminated, claimed jobs
followed by queued jobs list the packaged tasks in creation order, every
claimed job is either in flight or has been invoked, a result is stored
exactly for the invoked tasks and is the value of the task's own callable, and
only workers whose stop was requested have exited. -/
structure PoolInv {E V : Type} (p : ThreadPool E V) : Prop where
  alive : p.terminated = false
  fifo : p.claimLog.map Prod.snd ++ p.tasks = List.range p.heap.length
  flight : List.Perm (p.runLog.map Prod.snd ++ p.inflight) (p.claimLog.map Prod.snd)
  results : ∀ h t, p.heap[h]? = some t →
    (t.result = none ∧ h ∉ p.runLog.map Prod.snd) ∨
    (t.result = some (t.fn ()) ∧ h ∈ p.runLog.map Prod.snd)
  exits : ∀ w ∈ p.workers, w.pc = Pc.exited → w.stop = true

deriving instance DecidableEq for Except

/-- The pool `ThreadPool pool(4)` of `thread_pool_tests.cpp`, as constructed. -/
def testPool : ThreadPool String Int :=
  { workers := List.replicate 4 { pc := Pc.loopHead, stop := false }
    tasks := []
    stopping := false
    heap := []
    terminated := false
    claimLog := []
    runLog := [] }

/-- That pool after `pool.submit([]{ return 42; })` and
`pool.submit([](int a){ return a + 1; }, 7)`. -/
def testPoolSubmitted : ThreadPool String Int :=
  { testPool with
    tasks := [0, 1]
    heap := [{ fn := fun _ => Except.ok 42, result := none },
             { fn := fun _ => Except.ok (7 + 1), result := none }] }

/-- The second test: `ThreadPool pool(2)` after `pool.submit([i]{ return i; })`
for `i = 0 .. 19`, followed by `rounds` round-robin turns of the two workers. -/
def testPoolTwenty (rounds : Nat) : Option (ThreadPool String Int) :=
  match ThreadPool.ctor 2 with
  | Except.error _ => none
  | Except.ok p =>
    some (p.exec ((List.range 20).map (fun i => PoolAction.submit fun _ => Except.ok (i : Int))
      ++ (List.replicate rounds [PoolAction.worker 0, PoolAction.worker 1]).flatten))

/-- A shutdown of the 4-worker test pool: worker 0 has claimed the first task
when a second one is submitted; then the destructor body runs and the worker
threads are stopped and joined one after the other. -/
def shutdownSchedule : List (PoolAction String Int) :=
  [PoolAction.submit fun _ => Except.ok 42, PoolAction.worker 0, PoolAction.worker 0,
   PoolAction.submit fun _ => Except.ok 8, PoolAction.dtor,
   PoolAction.request_stop 0, PoolAction.worker 0, PoolAction.worker 0,
   PoolAction.request_stop 1, PoolAction.worker 1,
   PoolAction.request_stop 2, PoolAction.worker 2,
   PoolAction.request_stop 3, PoolAction.worker 3]

/-! ## `dijkstra` of `dsa.h`

`Node` and `Weight` are `int` in the source.  Vertices are embedded as natural
numbers (a negative index is undefined behaviour and is not a vertex);
weights are integers and the one addition of the routine wraps to 32 bits.
The `while (!pq.empty())` loop is bounded by a fuel counter: `none` means the
counter ran out before the queue was empty.
-/

/-- `using AdjList = std::vector<std::vector<std::pair<Node, Weight>>>`, with
`Node = int` embedded as `Nat` (valid indices only) and `Weight = int` as
`Int`. -/
abbrev AdjList := List (List (Nat × Int))

/-- `std::numeric_limits<int>::max()`. -/
def INT_MAX : Int := 2147483647

/-- Result of 32-bit two's-complement `int` arithmetic. -/
def wrapInt32 (x : Int) : Int := (x + 2147483648) % 4294967296 - 2147483648

/-- `const Weight INF = std::numeric_limits<Weight>::max() / 4`. -/
def INF : Int := INT_MAX / 4

/-- `operator<` of `P = std::pair<Weight, Node>`: lexicographic. -/
def pairLt (a b : Int × Nat) : Bool :=
  decide (a.1 < b.1) || (decide (a.1 = b.1) && decide (a.2 < b.2))

/-- `pq.top()` of the min-heap `priority_queue<P, vector<P>, greater<P>>`: the
least queued pair, `none` when the queue is empty. -/
def pqTop : List (Int × Nat) → Option (Int × Nat)
  | [] => none
  | x :: xs => some (xs.foldl (fun m y => if pairLt y m then y else m) x)

/-- Body of `for (auto &e : g[u])` for one edge `e`, on the pair
(`dist`, `pq`): relax the edge from a vertex at distance `d`. -/
def relax (d : Int) (st : List Int × List (Int × Nat)) (e : Nat × Int) :
    List Int × List (Int × Nat) :=
  let v := e.1
  let w := e.2
  if st.1.getD v 0 > wrapInt32 (d + w) then
    let dist := st.1.set v (wrapInt32 (d + w))
    (dist, st.2 ++ [(dist.getD v 0, v)])
  else st

/-- The `while (!pq.empty())` loop of `dijkstra`, at most `fuel` iterations. -/
def dijkstraLoop (g : AdjList) : Nat → List Int → List (Int × Nat) → Option (List Int)
  | 0, _, _ => none
  | fuel + 1, dist, pq =>
    match pqTop pq with
    | none => some dist
    | some (d, u) =>
      let pq1 := pq.erase (d, u)
      if d ≠ dist.getD u 0 then dijkstraLoop g fuel dist pq1
      else
        let st := (g.getD u []).foldl (relax d) (dist, pq1)
        dijkstraLoop g fuel st.1 st.2

/-- `dijkstra(g, src)` with the loop bounded by `fuel`. -/
def dijkstra (fuel : Nat) (g : AdjList) (src : Nat) : Option (List Int) :=
  let dist := (List.replicate g.length INF).set src 0
  dijkstraLoop g fuel dist [(0, src)]

/-- A path of `g` from `src` to a vertex, with its total weight (vertices may
repeat; weights add up without wrapping). -/
inductive GraphPath (g : AdjList) (src : Nat) : Nat → Int → Prop where
  | nil : GraphPath g src src 0
  | snoc {u v : Nat} {d w : Int} :
      GraphPath g src u d → (v, w) ∈ g.getD u [] → GraphPath g src v (d + w)

/-- Input condition of `dijkstra`: every edge points to a vertex of the graph
and carries a non-negative weight below `INF`. -/
def ValidGraph (g : AdjList) : Prop :=
  ∀ es ∈ g, ∀ e ∈ es, e.1 < g.length ∧ 0 ≤ e.2 ∧ e.2 < INF

/-- Loop invariant of `dijkstra` on (`dist`, `pq`): tentative distances lie in
`[0, INF]`, the source stays at 0, every distance below `INF` is the weight of
a path, queued vertices are vertices, and every vertex with a distance below
`INF` is either queued with that distance or has all its edges relaxed. -/
structure DijkstraInv (g : AdjList) (src : Nat) (dist : List Int)
    (pq : List (Int × Nat)) : Prop where
  len : dist.length = g.length
  range : ∀ v, v < g.length → 0 ≤ dist.getD v 0 ∧ dist.getD v 0 ≤ INF
  source : dist.getD src 0 = 0
  sound : ∀ v, v < g.length → dist.getD v 0 = INF ∨ GraphPath g src v (dist.getD v 0)
  queued : ∀ e ∈ pq, e.2 < g.length
  closed : ∀ v, v < g.length → dist.getD v 0 ≠ INF →
    (dist.getD v 0, v) ∈ pq ∨ ∀ e ∈ g.getD v [], dist.getD e.1 0 ≤ dist.getD v 0 + e.2

/-- What the edge loop of one vertex keeps, relative to the state
(`dist0`, `pq0`) it started from. -/
structure RelaxInv (g : AdjList) (src : Nat) (dist0 : List Int)
    (pq0 : List (Int × Nat)) (st : List Int × List (Int × Nat)) : Prop where
  len : st.1.length = g.length
  range : ∀ v, v < g.length → 0 ≤ st.1.getD v 0 ∧ st.1.getD v 0 ≤ INF
  sound : ∀ v, v < g.length → st.1.getD v 0 = INF ∨ GraphPath g src v (st.1.getD v 0)
  queued : ∀ e ∈ st.2, e.2 < g.length
  kept : ∀ e ∈ pq0, e ∈ st.2
  pushed : ∀ v, v < g.length → st.1.getD v 0 = dist0.getD v 0 ∨ (st.1.getD v 0, v) ∈ st.2
  measure : st.1.sum + st.2.length ≤ dist0.sum + pq0.length

/-- The lambda `add` of `test_dijkstra_simple`: an undirected edge. -/
def addEdge (g : AdjList) (u v : Nat) (w : Int) : AdjList :=
  let g1 := g.set u (g.getD u [] ++ [(v, w)])
  g1.set v (g1.getD v [] ++ [(u, w)])

/-- The graph built by `test_dijkstra_simple`. -/
def testGraph : AdjList :=
  addEdge (addEdge (addEdge (addEdge (List.replicate 4 []) 0 1 1) 1 2 2) 0 2 4) 2 3 1

/-! ## `performance_optimization_demo.cpp`: sums and loops over `vector<int>`

A `vector<int>` is a list of integers; every `int` operation wraps to 32 bits.
-/

/-- `std::abs(int)`. -/
def absInt32 (x : Int) : Int := wrapInt32 (if x < 0 then -x else x)

/-- `int sumWithBranches(const vector<int>& data)`. -/
def sumWithBranches (data : List Int) : Int :=
  data.foldl (fun sum x => if x > 0 then wrapInt32 (sum + x) else wrapInt32 (sum - x)) 0

/-- `int sumBranchless(const vector<int>& data)`. -/
def sumBranchless (data : List Int) : Int :=
  data.foldl
    (fun sum x =>
      let sign : Int := if x > 0 then 1 else -1
      wrapInt32 (sum + wrapInt32 (sign * absInt32 x)))
    0

/-- `void processDataInefficient(vector<int>& data)`: the vector after the
call. -/
def processDataInefficient (data : List Int) : List Int :=
  (List.range data.length).foldl
    (fun d i =>
      d.set i (wrapInt32 (wrapInt32 (d.getD i 0 * 2) + d.getD ((i + 1) % d.length) 0)))
    data

/-- `void processDataOptimized(vector<int>& data)`: the vector after the call.
The loop state is the vector and the local `next`. -/
def processDataOptimized (data : List Int) : List Int :=
  if data.isEmpty then data
  else
    let st := (List.range (data.length - 1)).foldl
      (fun (s : List Int × Int) i =>
        let current := s.1.getD i 0
        let temp := s.1.getD (i + 1) 0
        (s.1.set i (wrapInt32 (wrapInt32 (current * 2) + temp)), temp))
      (data, data.getD 0 0)
    st.1.set (st.1.length - 1)
      (wrapInt32 (wrapInt32 (st.1.getD (st.1.length - 1) 0 * 2) + st.1.getD 0 0))

/-! ## `design_patterns_demo.cpp`: the sorting strategies -/

namespace BubbleSort

/-- Body of the inner loop of `BubbleSort::sort`:
`if (data[j] > data[j + 1]) swap(data[j], data[j + 1]);`. -/
def compareSwap (d : List Int) (j : Nat) : List Int :=
  if d.getD j 0 > d.getD (j + 1) 0 then
    (d.set j (d.getD (j + 1) 0)).set (j + 1) (d.getD j 0)
  else d

/-- The inner loop `for (size_t j = 0; j < data.size() - i - 1; ++j)` for one
value of `i`. -/
def pass (d : List Int) (i : Nat) : List Int :=
  (List.range (d.length - i - 1)).foldl compareSwap d

/-- `void BubbleSort::sort(vector<int>& data)`: the vector after the call.  On
the empty vector `data.size() - 1` wraps to `SIZE_MAX` and the loops read
outside the vector; that undefined run is `none`. -/
def sort (data : List Int) : Option (List Int) :=
  if data.length = 0 then none
  else some ((List.range (data.length - 1)).foldl pass data)

end BubbleSort

namespace QuickSort

/-- `void QuickSort::sort(vector<int>& data)`: the vector after the call.  The
loop state is the pair (`left`, `right`). -/
def sort (data : List Int) : List Int :=
  if data.length ≤ 1 then data
  else
    let pivot := data.getD (data.length / 2) 0
    let st := (List.range data.length).foldl
      (fun (s : List Int × List Int) i =>
        if i ≠ data.length / 2 then
          if data.getD i 0 < pivot then (s.1 ++ [data.getD i 0], s.2)
          else (s.1, s.2 ++ [data.getD i 0])
        else s)
      ([], [])
    (st.1 ++ [pivot]) ++ st.2

end QuickSort

/-! ## The compile-time functions of `templates_demo.cpp` and
`template_metaprogramming_demo.cpp` -/

namespace TemplatesDemo

/-- `template <std::size_t N> constexpr std::size_t factorial()`, arithmetic
in `size_t` (modulo 2^64). -/
def factorial : Nat → Nat
  | 0 => 1
  | n + 1 => if n + 1 ≤ 1 then 1 else ((n + 1) * factorial n) % 2 ^ 64

end TemplatesDemo

namespace TemplateMetaprogramming

/-- `constexpr unsigned long long factorial(unsigned int n)`, the product in
`unsigned long long` (modulo 2^64). -/
def factorial : Nat → Nat
  | 0 => 1
  | n + 1 => if n + 1 ≤ 1 then 1 else ((n + 1) * factorial n) % 2 ^ 64

/-- `constexpr bool is_prime(unsigned int n, unsigned int divisor = 2)`, with
`unsigned int` arithmetic (modulo 2^32) and the recursion bounded by a fuel
counter: `none` when the counter runs out, and for the undefined `n % 0`. -/
def is_prime : Nat → Nat → Nat → Option Bool
  | 0, _, _ => none
  | fuel + 1, n, divisor =>
    if n < 2 then some false
    else if (divisor * divisor) % 2 ^ 32 > n then some true
    else if divisor = 0 then none
    else if n % divisor = 0 then some false
    else is_prime fuel n ((divisor + 1) % 2 ^ 32)

end TemplateMetaprogramming

/-- Trial division over the `2 ^ k` candidates from `lo` on: whether none of
them that is at least 2 divides `n`. -/
def noDivisorFrom (n : Nat) : Nat → Nat → Bool
  | 0, lo => Nat.ble lo 1 || !(Nat.beq (n % lo) 0)
  | k + 1, lo => noDivisorFrom n k lo && noDivisorFrom n k (lo + 2 ^ k)

/-! ## `MemoryPool` of `memory_pools_demo.cpp`

Addresses are natural numbers, `nullptr` is 0 and `size_t` products are taken
modulo 2^64.  The memory of the pool is seen through the one field that the
class reads and writes, the `next` pointer of the `Block` at an address; this
is the view of the memory in which distinct blocks do not overlap, that is
for `blockSize >= sizeof(Block)`, and in which all blocks coincide for
`blockSize == 0`.
-/

/-- `std::bad_alloc`. -/
inductive AllocError where
  | bad_alloc
  deriving DecidableEq, Repr

/-- `sizeof(Block)`, one pointer of 64 bits. -/
def sizeofBlock : Nat := 8

/-- Members of `class MemoryPool`, and the `next` field of the `Block` stored
at each address. -/
structure MemoryPool where
  blockSize : Nat
  blockCount : Nat
  pool : Nat
  freeList : Nat
  next : Nat → Nat

namespace MemoryPool

/-- `MemoryPool(size_t blockSize, size_t blockCount)`, where `base` is the
address returned by `new char[blockSize * blockCount]` and `mem` is what the
memory holds before the free list is threaded through it.  Each store
`block->next = freeList` writes the one cell `next block`; this is what the
code does when `sizeofBlock ≤ blockSize`, where the stores of distinct blocks
do not overlap, and when `blockSize = 0`, where every store goes to `base`.
For `0 < blockSize < sizeofBlock` the stores overlap and run past the
allocation, which is not embedded. -/
def ctor (blockSize blockCount base : Nat) (mem : Nat → Nat) : MemoryPool :=
  (List.range blockCount).foldl
    (fun p i =>
      let block := p.pool + (i * p.blockSize) % 2 ^ 64
      { p with next := Function.update p.next block p.freeList, freeList := block })
    { blockSize := blockSize, blockCount := blockCount, pool := base, freeList := 0,
      next := mem }

/-- Address `a` is the start of a block of the pool: inside
`[pool, pool + blockSize * blockCount)` and at a multiple of `blockSize` from
its start. -/
def IsBlock (p : MemoryPool) (a : Nat) : Prop :=
  p.pool ≤ a ∧ a < p.pool + p.blockSize * p.blockCount ∧ (a - p.pool) % p.blockSize = 0

instance decIsBlock (p : MemoryPool) (a : Nat) : Decidable (p.IsBlock a) := by
  unfold IsBlock
  infer_instance

/-- `void* allocate()`: the new state and the block, or `bad_alloc`. -/
def allocate (p : MemoryPool) : Except AllocError (MemoryPool × Nat) :=
  if p.freeList = 0 then Except.error AllocError.bad_alloc
  else Except.ok ({ p with freeList := p.next p.freeList }, p.freeList)

/-- `void deallocate(void* ptr)`: return on a null pointer, return on a pointer
outside `[pool, pool + blockSize * blockCount)`, else push `ptr` on the free
list.  The store `block->next = freeList` writes the one cell `next ptr`; this
is what the code does when `ptr` is the start of a block and
`sizeofBlock ≤ blockSize` (see `IsBlock`).  For another pointer in the range
the store overlaps the `next` fields of neighbouring blocks, which is not
embedded. -/
def deallocate (p : MemoryPool) (ptr : Nat) : MemoryPool :=
  if ptr = 0 then p
  else if ptr < p.pool ∨ ptr ≥ p.pool + (p.blockSize * p.blockCount) % 2 ^ 64 then p
  else { p with next := Function.update p.next ptr p.freeList, freeList := ptr }

/-- `k` calls of `allocate` in a row: the final state and the blocks returned,
in order, or the first `bad_alloc`. -/
def allocateN : Nat → MemoryPool → Except AllocError (MemoryPool × List Nat)
  | 0, p => Except.ok (p, [])
  | k + 1, p =>
    match p.allocate with
    | Except.error e => Except.error e
    | Except.ok (q, b) =>
      match allocateN k q with
      | Except.error e => Except.error e
      | Except.ok (r, bs) => Except.ok (r, b :: bs)

/-- The blocks reached from address `a` by following `next`, at most `fuel` of
them, up to the first null pointer. -/
def chainFrom (next : Nat → Nat) : Nat → Nat → List Nat
  | 0, _ => []
  | fuel + 1, a => if a = 0 then [] else a :: chainFrom next fuel (next a)

/-- The free list, walked for at most `fuel` blocks. -/
def freeChain (p : MemoryPool) (fuel : Nat) : List Nat :=
  chainFrom p.next fuel p.freeList

/-- The link that the constructor stores in block `j` of a pool at `base`:
null in block 0, else the address of block `j - 1`. -/
def link (base blockSize j : Nat) : Nat :=
  if j = 0 then 0 else base + (j - 1) * blockSize

end MemoryPool

/-- The pool `MemoryPool pool(64, 10)` of `demonstrateMemoryPool`, placed at
address 4096 in zeroed memory. -/
def demoPool : MemoryPool := MemoryPool.ctor 64 10 4096 (fun _ => 0)

/-- That pool after its first `allocate()`, which returns the block at 4672. -/
def demoPoolAllocated : MemoryPool :=
  { demoPool with freeList := demoPool.next demoPool.freeList }

/-! # Proofs -/

/-! ## Lists: replacing one element under `filterMap` -/

theorem filterMap_set_same {α β : Type} (f : α → Option β) :
    ∀ (l : List α) (i : Nat) (w x : α), l[i]? = some w → f x = f w →
      (l.set i x).filterMap f = l.filterMap f
  | [], _, _, _, h, _ => by simp at h
  | a :: l, 0, w, x, h, hf => by
    simp at h
    subst h
    simp [List.filterMap_cons, hf]
  | a :: l, i + 1, w, x, h, hf => by
    simp at h
    simp [List.filterMap_cons, filterMap_set_same f l i w x h hf]

theorem filterMap_set_gain {α β : Type} (f : α → Option β) :
    ∀ (l : List α) (i : Nat) (w x : α) (j : β), l[i]? = some w → f w = none → f x = some j →
      List.Perm ((l.set i x).filterMap f) (j :: l.filterMap f)
  | [], _, _, _, _, h, _, _ => by simp at h
  | a :: l, 0, w, x, j, h, hw, hx => by
    simp at h
    subst h
    simp [List.filterMap_cons, hw, hx]
  | a :: l, i + 1, w, x, j, h, hw, hx => by
    simp at h
    have ih := filterMap_set_gain f l i w x j h hw hx
    simp only [List.set_cons_succ, List.filterMap_cons]
    cases f a with
    | none => simpa using ih
    | some b =>
      simp only
      exact (List.Perm.cons b ih).trans (List.Perm.swap j b _)

theorem filterMap_set_lose {α β : Type} (f : α → Option β) :
    ∀ (l : List α) (i : Nat) (w x : α) (j : β), l[i]? = some w → f w = some j → f x = none →
      List.Perm (l.filterMap f) (j :: (l.set i x).filterMap f)
  | [], _, _, _, _, h, _, _ => by simp at h
  | a :: l, 0, w, x, j, h, hw, hx => by
    simp at h
    subst h
    simp [List.filterMap_cons, hw, hx]
  | a :: l, i + 1, w, x, j, h, hw, hx => by
    simp at h
    have ih := filterMap_set_lose f l i w x j h hw hx
    simp only [List.set_cons_succ, List.filterMap_cons]
    cases f a with
    | none => simpa using ih
    | some b =>
      simp only
      exact (List.Perm.cons b ih).trans (List.Perm.swap j b _)

/-! ## The pool invariant -/

namespace ThreadPool

variable {E V : Type}

theorem inv_ctor (n : Nat) (p : ThreadPool E V) (h : ctor n = Except.ok p) : PoolInv p := by
  simp only [ctor, Except.ok.injEq] at h
  subst h
  refine ⟨rfl, by simp, ?_, ?_, ?_⟩
  · have : (List.replicate n ({ pc := Pc.loopHead, stop := false } : Worker)).filterMap
        (fun w => w.pc.job) = [] := by
      rw [List.filterMap_eq_nil_iff]
      intro a ha
      rw [(List.mem_replicate.mp ha).2]
      rfl
    simp [inflight, this]
  · intro h t ht
    simp at ht
  · intro w hw hpc
    rw [(List.mem_replicate.mp hw).2] at hpc
    cases hpc

theorem claimed_nodup {p : ThreadPool E V} (hinv : PoolInv p) :
    (p.claimLog.map Prod.snd).Nodup := by
  have h := List.nodup_range p.heap.length
  rw [← hinv.fifo] at h
  exact (List.nodup_append.mp h).1

theorem claimed_lt {p : ThreadPool E V} (hinv : PoolInv p) {h : Nat}
    (hh : h ∈ p.claimLog.map Prod.snd) : h < p.heap.length := by
  have : h ∈ p.claimLog.map Prod.snd ++ p.tasks := List.mem_append_left _ hh
  rw [hinv.fifo] at this
  exact List.mem_range.mp this

theorem ran_claimed {p : ThreadPool E V} (hinv : PoolInv p) {h : Nat}
    (hh : h ∈ p.runLog.map Prod.snd) : h ∈ p.claimLog.map Prod.snd :=
  hinv.flight.subset (List.mem_append_left _ hh)

theorem inflight_claimed {p : ThreadPool E V} (hinv : PoolInv p) {h : Nat}
    (hh : h ∈ p.inflight) : h ∈ p.claimLog.map Prod.snd :=
  hinv.flight.subset (List.mem_append_right _ hh)

theorem inflight_not_ran {p : ThreadPool E V} (hinv : PoolInv p) {h : Nat}
    (hh : h ∈ p.inflight) : h ∉ p.runLog.map Prod.snd := by
  have hnd : (p.runLog.map Prod.snd ++ p.inflight).Nodup :=
    hinv.flight.nodup_iff.mpr (claimed_nodup hinv)
  intro hr
  exact (List.nodup_append.mp hnd).2.2 hr hh

theorem mem_set_cases {α : Type} {l : List α} {i : Nat} {x y : α} (h : y ∈ l.set i x) :
    y = x ∨ y ∈ l := by
  rcases List.mem_or_eq_of_mem_set h with h | h
  · exact Or.inr h
  · exact Or.inl h

theorem inv_setPc {p : ThreadPool E V} (hinv : PoolInv p) {i : Nat} {w : Worker} {pc : Pc}
    (hw : p.workers[i]? = some w) (hold : w.pc.job = none) (hnew : pc.job = none)
    (hex : pc = Pc.exited → w.stop = true) : PoolInv (p.setPc i pc) := by
  simp only [setPc, hw]
  refine ⟨hinv.alive, hinv.fifo, ?_, hinv.results, ?_⟩
  · have : (p.workers.set i { w with pc := pc }).filterMap (fun w => w.pc.job)
        = p.workers.filterMap (fun w => w.pc.job) :=
      filterMap_set_same _ _ _ w _ hw (by simp [hold, hnew])
    simpa [inflight, this] using hinv.flight
  · intro w1 hw1 hpc
    rcases mem_set_cases hw1 with h | h
    · subst h
      exact hex hpc
    · exact hinv.exits w1 h hpc

theorem inv_claim {p : ThreadPool E V} (hinv : PoolInv p) {i : Nat} {w : Worker}
    {job : Nat} {rest : List Nat}
    (hw : p.workers[i]? = some w) (hold : w.pc.job = none) (hq : p.tasks = job :: rest) :
    PoolInv { p with
      tasks := rest
      workers := p.workers.set i { w with pc := Pc.running (some job) }
      claimLog := p.claimLog ++ [(i, job)] } := by
  refine ⟨hinv.alive, ?_, ?_, ?_, ?_⟩
  · have := hinv.fifo
    rw [hq] at this
    simpa using this
  · have hg : List.Perm
        ((p.workers.set i { w with pc := Pc.running (some job) }).filterMap (fun w => w.pc.job))
        (job :: p.workers.filterMap (fun w => w.pc.job)) :=
      filterMap_set_gain _ _ _ w _ job hw hold rfl
    have h1 : List.Perm (p.runLog.map Prod.snd ++ (job :: p.inflight))
        (p.claimLog.map Prod.snd ++ [job]) := by
      refine List.perm_middle.trans ?_
      refine (List.Perm.cons job hinv.flight).trans ?_
      exact (List.perm_append_singleton job _).symm
    simp only [inflight, List.map_append, List.map_cons, List.map_nil]
    exact (List.Perm.append_left _ hg).trans h1
  · exact hinv.results
  · intro w1 hw1 hpc
    rcases mem_set_cases hw1 with h | h
    · subst h
      cases hpc
    · exact hinv.exits w1 h hpc

theorem running_inflight {p : ThreadPool E V} {i : Nat} {w : Worker} {task : Nat}
    (hw : p.workers[i]? = some w) (hpc : w.pc = Pc.running (some task)) :
    task ∈ p.inflight := by
  simp only [inflight, List.mem_filterMap]
  exact ⟨w, List.getElem?_mem hw, by rw [hpc]; rfl⟩

theorem running_pending {p : ThreadPool E V} (hinv : PoolInv p) {i : Nat} {w : Worker}
    {task : Nat} (hw : p.workers[i]? = some w) (hpc : w.pc = Pc.running (some task)) :
    ∃ t, p.heap[task]? = some t ∧ t.result = none := by
  have hin := running_inflight hw hpc
  have hlt := claimed_lt hinv (inflight_claimed hinv hin)
  refine ⟨p.heap[task], List.getElem?_eq_getElem hlt, ?_⟩
  rcases hinv.results task _ (List.getElem?_eq_getElem hlt) with h | h
  · exact h.1
  · exact absurd h.2 (inflight_not_ran hinv hin)

theorem inv_invoke {p : ThreadPool E V} (hinv : PoolInv p) {i : Nat} {w : Worker}
    {task : Nat} (hw : p.workers[i]? = some w) (hpc : w.pc = Pc.running (some task)) :
    PoolInv ((p.invoke i task).setPc i Pc.loopHead) := by
  obtain ⟨t, ht, hres⟩ := running_pending hinv hw hpc
  have hin := running_inflight hw hpc
  have hnot := inflight_not_ran hinv hin
  simp only [invoke, ht, hres, setPc, hw]
  refine ⟨hinv.alive, ?_, ?_, ?_, ?_⟩
  · simpa using hinv.fifo
  · have hl : List.Perm (p.workers.filterMap (fun w => w.pc.job))
        (task :: (p.workers.set i { w with pc := Pc.loopHead }).filterMap (fun w => w.pc.job)) :=
      filterMap_set_lose _ _ _ w _ task hw (by rw [hpc]; rfl) rfl
    have h1 : List.Perm (p.runLog.map Prod.snd ++
        (task :: (p.workers.set i { w with pc := Pc.loopHead }).filterMap (fun w => w.pc.job)))
        (p.claimLog.map Prod.snd) :=
      (List.Perm.append_left _ hl.symm).trans hinv.flight
    simp only [inflight, List.map_append, List.map_cons, List.map_nil, List.append_assoc,
      List.singleton_append]
    exact h1
  · intro h t1 ht1
    simp only [List.map_append, List.map_cons, List.map_nil, List.mem_append,
      List.mem_singleton]
    by_cases hh : h = task
    · subst hh
      have hlt : h < p.heap.length := (List.getElem?_eq_some_iff.mp ht).1
      rw [List.getElem?_set_self hlt] at ht1
      simp only [Option.some.injEq] at ht1
      subst ht1
      exact Or.inr ⟨rfl, Or.inr rfl⟩
    · rw [List.getElem?_set_ne (Ne.symm hh)] at ht1
      rcases hinv.results h t1 ht1 with h1 | h1
      · exact Or.inl ⟨h1.1, fun hc => hc.elim h1.2 hh⟩
      · exact Or.inr ⟨h1.1, Or.inl h1.2⟩
  · intro w1 hw1 hpc1
    rcases mem_set_cases hw1 with h | h
    · subst h
      cases hpc1
    · exact hinv.exits w1 h hpc1

theorem inv_worker_loop {p : ThreadPool E V} (hinv : PoolInv p) (i : Nat) :
    PoolInv (p.worker_loop i) := by
  unfold worker_loop
  cases hw : p.workers[i]? with
  | none => exact hinv
  | some w =>
    simp only
    cases hpc : w.pc with
    | loopHead =>
      simp only
      split
      · rename_i hs
        exact inv_setPc hinv hw (by rw [hpc]; rfl) rfl (fun _ => hs)
      · exact inv_setPc hinv hw (by rw [hpc]; rfl) rfl (fun h => by cases h)
    | waiting =>
      simp only
      split
      · cases hq : p.tasks with
        | nil => exact inv_setPc hinv hw (by rw [hpc]; rfl) rfl (fun h => by cases h)
        | cons job rest => exact inv_claim hinv hw (by rw [hpc]; rfl) hq
      · exact hinv
    | running job =>
      cases job with
      | none => exact inv_setPc hinv hw (by rw [hpc]; rfl) rfl (fun h => by cases h)
      | some task => exact inv_invoke hinv hw hpc
    | exited => exact hinv

theorem inv_submit {p q : ThreadPool E V} (hinv : PoolInv p) {A : Type} (f : A → Except E V)
    (a : A) {fut : Nat} (h : p.submit f a = Except.ok (q, fut)) : PoolInv q := by
  simp only [submit, Except.ok.injEq, Prod.mk.injEq] at h
  obtain ⟨rfl, rfl⟩ := h
  refine ⟨hinv.alive, ?_, hinv.flight, ?_, hinv.exits⟩
  · simp only [List.length_append, List.length_singleton, List.range_succ]
    rw [← List.append_assoc, hinv.fifo]
  · intro h t ht
    simp only at ht
    by_cases hlt : h < p.heap.length
    · rw [List.getElem?_append_left hlt] at ht
      exact hinv.results h t ht
    · have hge : p.heap.length ≤ h := Nat.le_of_not_lt hlt
      rw [List.getElem?_append_right hge] at ht
      have hnr : h ∉ p.runLog.map Prod.snd := fun hc =>
        hlt (claimed_lt hinv (ran_claimed hinv hc))
      cases hk : h - p.heap.length with
      | zero =>
        rw [hk] at ht
        simp only [List.getElem?_cons_zero, Option.some.injEq] at ht
        subst ht
        exact Or.inl ⟨rfl, hnr⟩
      | succ k =>
        rw [hk] at ht
        simp at ht

theorem inv_dtor {p : ThreadPool E V} (hinv : PoolInv p) : PoolInv p.dtor :=
  ⟨hinv.alive, hinv.fifo, hinv.flight, hinv.results, hinv.exits⟩

theorem inv_request_stop {p : ThreadPool E V} (hinv : PoolInv p) (i : Nat) :
    PoolInv (p.request_stop i) := by
  unfold request_stop
  cases hw : p.workers[i]? with
  | none => exact hinv
  | some w =>
    refine ⟨hinv.alive, hinv.fifo, ?_, hinv.results, ?_⟩
    · have : (p.workers.set i { w with stop := true }).filterMap (fun w => w.pc.job)
          = p.workers.filterMap (fun w => w.pc.job) :=
        filterMap_set_same _ _ _ w _ hw rfl
      simpa [inflight, this] using hinv.flight
    · intro w1 hw1 hpc1
      rcases mem_set_cases hw1 with h | h
      · subst h
        rfl
      · exact hinv.exits w1 h hpc1

theorem inv_step {p : ThreadPool E V} (hinv : PoolInv p) (a : PoolAction E V) :
    PoolInv (p.step a) := by
  unfold step
  rw [if_neg (by simp [hinv.alive])]
  cases a with
  | submit f => exact inv_submit hinv f () rfl
  | dtor => exact inv_dtor hinv
  | request_stop i => exact inv_request_stop hinv i
  | worker i => exact inv_worker_loop hinv i

theorem inv_exec {p : ThreadPool E V} (hinv : PoolInv p) (acts : List (PoolAction E V)) :
    PoolInv (p.exec acts) := by
  induction acts generalizing p with
  | nil => exact hinv
  | cons a acts ih => exact ih (inv_step hinv a)

end ThreadPool

/-! ## Results are those of the task's own callable, and they arrive -/

namespace ThreadPool

variable {E V : Type}

theorem exec_cons (p : ThreadPool E V) (a : PoolAction E V) (acts : List (PoolAction E V)) :
    p.exec (a :: acts) = (p.step a).exec acts := rfl

theorem exec_append (p : ThreadPool E V) (xs ys : List (PoolAction E V)) :
    p.exec (xs ++ ys) = (p.exec xs).exec ys := by
  simp [exec, List.foldl_append]

theorem step_worker {p : ThreadPool E V} (hinv : PoolInv p) (i : Nat) :
    p.step (PoolAction.worker i) = p.worker_loop i := by
  simp [step, hinv.alive]

/-- No action replaces the callable stored in a packaged task. -/
theorem step_keeps_fn {p : ThreadPool E V} (hinv : PoolInv p) (a : PoolAction E V) {h : Nat}
    {t : PackagedTask E V} (ht : p.heap[h]? = some t) :
    ∃ t1, (p.step a).heap[h]? = some t1 ∧ t1.fn = t.fn := by
  have hlt : h < p.heap.length := (List.getElem?_eq_some_iff.mp ht).1
  unfold step
  rw [if_neg (by simp [hinv.alive])]
  cases a with
  | submit f =>
    refine ⟨t, ?_, rfl⟩
    simp only [submit]
    rw [List.getElem?_append_left hlt]
    exact ht
  | dtor => exact ⟨t, ht, rfl⟩
  | request_stop i =>
    refine ⟨t, ?_, rfl⟩
    simp only [request_stop]
    split <;> exact ht
  | worker i =>
    simp only
    unfold worker_loop
    cases hw : p.workers[i]? with
    | none => exact ⟨t, ht, rfl⟩
    | some w =>
      simp only
      cases hpc : w.pc with
      | loopHead =>
        simp only [setPc, hw]
        split <;> exact ⟨t, ht, rfl⟩
      | waiting =>
        simp only [setPc, hw]
        split
        · split <;> exact ⟨t, ht, rfl⟩
        · exact ⟨t, ht, rfl⟩
      | exited => exact ⟨t, ht, rfl⟩
      | running job =>
        cases job with
        | none =>
          simp only [setPc, hw]
          exact ⟨t, ht, rfl⟩
        | some task =>
          obtain ⟨t0, ht0, hres⟩ := running_pending hinv hw hpc
          simp only [invoke, ht0, hres, setPc, hw]
          by_cases hh : task = h
          · subst hh
            rw [ht] at ht0
            simp only [Option.some.injEq] at ht0
            subst ht0
            exact ⟨_, List.getElem?_set_self hlt, rfl⟩
          · refine ⟨t, ?_, rfl⟩
            rw [List.getElem?_set_ne hh]
            exact ht

theorem exec_keeps_fn {p : ThreadPool E V} (hinv : PoolInv p) (acts : List (PoolAction E V))
    {h : Nat} {t : PackagedTask E V} (ht : p.heap[h]? = some t) :
    ∃ t1, (p.exec acts).heap[h]? = some t1 ∧ t1.fn = t.fn := by
  induction acts generalizing p t with
  | nil => exact ⟨t, ht, rfl⟩
  | cons a acts ih =>
    obtain ⟨t1, h1, hf1⟩ := step_keeps_fn hinv a ht
    obtain ⟨t2, h2, hf2⟩ := ih (inv_step hinv a) h1
    exact ⟨t2, h2, hf2.trans hf1⟩

/-- In a state satisfying the invariant a ready future holds the value of the
callable stored in its own packaged task. -/
theorem get_eq_fn {p : ThreadPool E V} (hinv : PoolInv p) {h : Nat} {t : PackagedTask E V}
    (ht : p.heap[h]? = some t) {r : Except E V} (hr : p.get h = some r) : r = t.fn () := by
  simp only [get, ht] at hr
  rcases hinv.results h t ht with h1 | h1
  · rw [h1.1] at hr
    cases hr
  · rw [h1.1] at hr
    simp only [Option.some.injEq] at hr
    exact hr.symm

theorem wl_loopHead {p : ThreadPool E V} {i : Nat} {w : Worker}
    (hw : p.workers[i]? = some w) (hpc : w.pc = Pc.loopHead) (hs : w.stop = false) :
    (p.worker_loop i).workers[i]? = some { pc := Pc.waiting, stop := false } ∧
      (p.worker_loop i).tasks = p.tasks := by
  have hlt : i < p.workers.length := (List.getElem?_eq_some_iff.mp hw).1
  simp [worker_loop, hw, hpc, hs, setPc, List.getElem?_set_self hlt]

theorem wl_claim {p : ThreadPool E V} {i : Nat} {w : Worker} {job : Nat} {rest : List Nat}
    (hw : p.workers[i]? = some w) (hpc : w.pc = Pc.waiting) (hq : p.tasks = job :: rest) :
    (p.worker_loop i).workers[i]? = some { pc := Pc.running (some job), stop := w.stop } ∧
      (p.worker_loop i).tasks = rest := by
  have hlt : i < p.workers.length := (List.getElem?_eq_some_iff.mp hw).1
  simp [worker_loop, hw, hpc, hq, List.getElem?_set_self hlt]

theorem wl_running {p : ThreadPool E V} (hinv : PoolInv p) {i : Nat} {w : Worker}
    {job : Option Nat} (hw : p.workers[i]? = some w) (hpc : w.pc = Pc.running job) :
    (p.worker_loop i).workers[i]? = some { pc := Pc.loopHead, stop := w.stop } ∧
      (p.worker_loop i).tasks = p.tasks ∧
      ∀ task, job = some task → (p.worker_loop i).get task ≠ none := by
  have hlt : i < p.workers.length := (List.getElem?_eq_some_iff.mp hw).1
  cases job with
  | none => simp [worker_loop, hw, hpc, setPc, List.getElem?_set_self hlt]
  | some task =>
    obtain ⟨t0, ht0, hres⟩ := running_pending hinv hw hpc
    have hlt0 : task < p.heap.length := (List.getElem?_eq_some_iff.mp ht0).1
    simp [worker_loop, hw, hpc, setPc, invoke, ht0, hres, List.getElem?_set_self hlt, get,
      List.getElem?_set_self hlt0]

theorem exec_worker_succ {p : ThreadPool E V} (hinv : PoolInv p) (i m : Nat) :
    p.exec (List.replicate (m + 1) (PoolAction.worker i))
      = (p.worker_loop i).exec (List.replicate m (PoolAction.worker i)) := by
  rw [List.replicate_succ, exec_cons, step_worker hinv]

/-- A waiting worker whose stop was not requested works through the queue up
to any given position and runs the job found there. -/
theorem progress_waiting (i : Nat) : ∀ (k : Nat) (p : ThreadPool E V) (w : Worker) (task : Nat),
    PoolInv p → p.workers[i]? = some w → w.pc = Pc.waiting → w.stop = false →
    p.tasks[k]? = some task →
    ∃ m, (p.exec (List.replicate m (PoolAction.worker i))).get task ≠ none := by
  intro k
  induction k with
  | zero =>
    intro p w task hinv hw hpc hs hk
    cases hq : p.tasks with
    | nil => simp [hq] at hk
    | cons job rest =>
      rw [hq] at hk
      simp only [List.getElem?_cons_zero, Option.some.injEq] at hk
      subst hk
      obtain ⟨hw1, -⟩ := wl_claim hw hpc hq
      have hinv1 := inv_worker_loop hinv i
      obtain ⟨-, -, hget⟩ := wl_running hinv1 hw1 rfl
      refine ⟨2, ?_⟩
      rw [exec_worker_succ hinv, exec_worker_succ hinv1]
      exact hget job rfl
  | succ k ih =>
    intro p w task hinv hw hpc hs hk
    cases hq : p.tasks with
    | nil => simp [hq] at hk
    | cons job rest =>
      rw [hq] at hk
      simp only [List.getElem?_cons_succ] at hk
      obtain ⟨hw1, hq1⟩ := wl_claim hw hpc hq
      have hinv1 := inv_worker_loop hinv i
      obtain ⟨hw2, hq2, -⟩ := wl_running hinv1 hw1 rfl
      have hinv2 := inv_worker_loop hinv1 i
      obtain ⟨hw3, hq3⟩ := wl_loopHead hw2 rfl hs
      have hinv3 := inv_worker_loop hinv2 i
      have hk3 : ((p.worker_loop i).worker_loop i).worker_loop i |>.tasks[k]? = some task := by
        rw [hq3, hq2, hq1]
        exact hk
      obtain ⟨m, hm⟩ := ih _ _ task hinv3 hw3 rfl rfl hk3
      refine ⟨m + 3, ?_⟩
      rw [exec_worker_succ hinv, exec_worker_succ hinv1, exec_worker_succ hinv2]
      exact hm

/-- Same, from any control point of the worker. -/
theorem progress_queued {p : ThreadPool E V} (hinv : PoolInv p) {i : Nat} {w : Worker}
    (hw : p.workers[i]? = some w) (hs : w.stop = false) {k task : Nat}
    (hk : p.tasks[k]? = some task) :
    ∃ m, (p.exec (List.replicate m (PoolAction.worker i))).get task ≠ none := by
  cases hpc : w.pc with
  | exited =>
    have := hinv.exits w (List.getElem?_mem hw) hpc
    rw [hs] at this
    cases this
  | waiting => exact progress_waiting i k p w task hinv hw hpc hs hk
  | loopHead =>
    obtain ⟨hw1, hq1⟩ := wl_loopHead hw hpc hs
    have hinv1 := inv_worker_loop hinv i
    obtain ⟨m, hm⟩ := progress_waiting i k _ _ task hinv1 hw1 rfl rfl (by rw [hq1]; exact hk)
    exact ⟨m + 1, by rw [exec_worker_succ hinv]; exact hm⟩
  | running job =>
    obtain ⟨hw1, hq1, -⟩ := wl_running hinv hw hpc
    have hinv1 := inv_worker_loop hinv i
    obtain ⟨hw2, hq2⟩ := wl_loopHead hw1 rfl hs
    have hinv2 := inv_worker_loop hinv1 i
    obtain ⟨m, hm⟩ := progress_waiting i k _ _ task hinv2 hw2 rfl rfl
      (by rw [hq2, hq1]; exact hk)
    exact ⟨m + 2, by rw [exec_worker_succ hinv, exec_worker_succ hinv1]; exact hm⟩

/-- Every created task gets its result once the workers are scheduled, as
long as some worker has not been asked to stop. -/
theorem progress_any {p : ThreadPool E V} (hinv : PoolInv p) {i : Nat} {w : Worker}
    (hw : p.workers[i]? = some w) (hs : w.stop = false) {h : Nat} (hh : h < p.heap.length) :
    ∃ more : List Nat, (p.exec (more.map PoolAction.worker)).get h ≠ none := by
  have hmem : h ∈ p.claimLog.map Prod.snd ++ p.tasks := by
    rw [hinv.fifo]
    exact List.mem_range.mpr hh
  rcases List.mem_append.mp hmem with hc | hq
  · rcases List.mem_append.mp (hinv.flight.symm.subset hc) with hr | hf
    · refine ⟨[], ?_⟩
      rcases hinv.results h _ (List.getElem?_eq_getElem hh) with h1 | h1
      · exact absurd hr h1.2
      · simp [exec, get, List.getElem?_eq_getElem hh, h1.1]
    · simp only [inflight, List.mem_filterMap] at hf
      obtain ⟨w1, hw1, hjob⟩ := hf
      obtain ⟨j, hj⟩ := List.mem_iff_getElem?.mp hw1
      have hpc : w1.pc = Pc.running (some h) := by
        cases hp : w1.pc with
        | running job =>
          rw [hp] at hjob
          simp only [Pc.job] at hjob
          rw [hjob]
        | loopHead => rw [hp] at hjob; cases hjob
        | waiting => rw [hp] at hjob; cases hjob
        | exited => rw [hp] at hjob; cases hjob
      obtain ⟨-, -, hget⟩ := wl_running hinv hj hpc
      refine ⟨[j], ?_⟩
      simp only [List.map_cons, List.map_nil, exec_cons, step_worker hinv]
      exact hget h rfl
  · obtain ⟨k, hk⟩ := List.mem_iff_getElem?.mp hq
    obtain ⟨m, hm⟩ := progress_queued hinv hw hs hk
    exact ⟨List.replicate m i, by rw [List.map_replicate]; exact hm⟩

theorem map_set_same {α β : Type} (f : α → β) :
    ∀ (l : List α) (i : Nat) (w x : α), l[i]? = some w → f x = f w →
      (l.set i x).map f = l.map f
  | [], _, _, _, h, _ => by simp at h
  | a :: l, 0, w, x, h, hf => by
    simp at h
    subst h
    simp [hf]
  | a :: l, i + 1, w, x, h, hf => by
    simp at h
    simp [map_set_same f l i w x h hf]

/-- Only `request_stop` changes a stop token. -/
theorem step_keeps_stop (p : ThreadPool E V) (a : PoolAction E V)
    (ha : a.isRequestStop = false) :
    (p.step a).workers.map (fun w => w.stop) = p.workers.map (fun w => w.stop) := by
  unfold step
  split
  · rfl
  · cases a with
    | submit f => rfl
    | dtor => rfl
    | request_stop i => cases ha
    | worker i =>
      simp only
      unfold worker_loop
      cases hw : p.workers[i]? with
      | none => rfl
      | some w =>
        have hset : ∀ pc, (p.workers.set i { w with pc := pc }).map (fun w => w.stop)
            = p.workers.map (fun w => w.stop) :=
          fun pc => map_set_same _ _ _ w _ hw rfl
        simp only
        cases hpc : w.pc with
        | loopHead =>
          simp only [setPc, hw]
          split <;> exact hset _
        | waiting =>
          simp only [setPc, hw]
          split
          · split
            · exact hset _
            · exact hset _
          · rfl
        | exited => rfl
        | running job =>
          cases job with
          | none =>
            simp only [setPc, hw]
            exact hset _
          | some task =>
            have hwk : (p.invoke i task).workers = p.workers := by
              unfold invoke
              split
              · split <;> rfl
              · rfl
            simp only [setPc, hwk, hw]
            exact hset _

theorem exec_keeps_stop (p : ThreadPool E V) (acts : List (PoolAction E V))
    (ha : ∀ a ∈ acts, a.isRequestStop = false) :
    (p.exec acts).workers.map (fun w => w.stop) = p.workers.map (fun w => w.stop) := by
  induction acts generalizing p with
  | nil => rfl
  | cons a acts ih =>
    rw [exec_cons, ih _ (fun b hb => ha b (List.mem_cons_of_mem _ hb)),
      step_keeps_stop p a (ha a (List.mem_cons_self _ _))]

end ThreadPool

/-- C1: in a pool built by the constructor, after any schedule `pre`, the
future `fut` returned by `submit f a` can only ever yield `f a`, whatever
schedule `post` follows; and when the pool has at least one worker and no
worker was asked to stop, scheduling the workers further makes that future
yield `f a`. -/
theorem submit_future_yields_own_result {E V A : Type} (n : Nat) (p₀ q : ThreadPool E V)
    (pre post : List (PoolAction E V)) (f : A → Except E V) (a : A) (fut : Nat)
    (hc : ThreadPool.ctor n = Except.ok p₀)
    (hs : (p₀.exec pre).submit f a = Except.ok (q, fut)) :
    (∀ r, (q.exec post).get fut = some r → r = f a) ∧
    (1 ≤ n → (∀ x ∈ pre ++ post, x.isRequestStop = false) →
      ∃ more : List Nat,
        ((q.exec post).exec (more.map PoolAction.worker)).get fut = some (f a)) := by
  have hinv1 := ThreadPool.inv_exec (ThreadPool.inv_ctor n p₀ hc) pre
  have hinvq := ThreadPool.inv_submit hinv1 f a hs
  have hq : q.heap[fut]? = some { fn := fun _ => f a, result := none } ∧
      q.workers = (p₀.exec pre).workers := by
    simp only [ThreadPool.submit, Except.ok.injEq, Prod.mk.injEq] at hs
    obtain ⟨rfl, rfl⟩ := hs
    simp
  have safe : ∀ (acts : List (PoolAction E V)) r, (q.exec acts).get fut = some r → r = f a := by
    intro acts r hr
    obtain ⟨t1, ht1, hfn⟩ := ThreadPool.exec_keeps_fn hinvq acts hq.1
    have := ThreadPool.get_eq_fn (ThreadPool.inv_exec hinvq acts) ht1 hr
    rw [this, hfn]
  refine ⟨safe post, ?_⟩
  intro hn hns
  have hstops : (q.exec post).workers.map (fun w => w.stop) = List.replicate n false := by
    rw [ThreadPool.exec_keeps_stop q post (fun x hx => hns x (List.mem_append_right _ hx)),
      hq.2, ThreadPool.exec_keeps_stop p₀ pre (fun x hx => hns x (List.mem_append_left _ hx))]
    simp only [ThreadPool.ctor, Except.ok.injEq] at hc
    subst hc
    simp
  have hlen : (q.exec post).workers.length = n := by
    have := congrArg List.length hstops
    simpa using this
  have h0 : 0 < (q.exec post).workers.length := by omega
  have hstop0 : ((q.exec post).workers[0]).stop = false := by
    have h1 : ((q.exec post).workers.map (fun w => w.stop))[0]? = some false := by
      rw [hstops]
      simp [List.getElem?_replicate]
      omega
    simpa [List.getElem?_eq_getElem h0] using h1
  obtain ⟨t1, ht1, -⟩ := ThreadPool.exec_keeps_fn hinvq post hq.1
  have hlt : fut < (q.exec post).heap.length := (List.getElem?_eq_some_iff.mp ht1).1
  obtain ⟨more, hmore⟩ := ThreadPool.progress_any (ThreadPool.inv_exec hinvq post)
    (List.getElem?_eq_getElem h0) hstop0 hlt
  refine ⟨more, ?_⟩
  cases hg : ((q.exec post).exec (more.map PoolAction.worker)).get fut with
  | none => exact absurd hg hmore
  | some r =>
    rw [← ThreadPool.exec_append] at hg
    rw [safe _ r hg]

/-- C1 on the first block of `thread_pool_tests.cpp`: the future of
`submit([](int a){ return a + 1; }, 7)` yields `7 + 1`. -/
theorem submit_future_yields_own_result_witness :
    ThreadPool.ctor 4 = Except.ok testPool ∧
    (testPool.exec [PoolAction.submit fun _ => Except.ok 42]).submit
        (fun a : Int => Except.ok (a + 1)) 7 = Except.ok (testPoolSubmitted, 1) ∧
    (∀ r, (testPoolSubmitted.exec [PoolAction.worker 0, PoolAction.worker 0]).get 1 = some r →
        r = Except.ok (7 + 1)) ∧
    ∃ more : List Nat,
      ((testPoolSubmitted.exec [PoolAction.worker 0, PoolAction.worker 0]).exec
        (more.map PoolAction.worker)).get 1 = some (Except.ok (7 + 1)) :=
  have key := submit_future_yields_own_result 4 testPool testPoolSubmitted
    [PoolAction.submit fun _ => Except.ok 42] [PoolAction.worker 0, PoolAction.worker 0]
    (fun a : Int => Except.ok (a + 1)) 7 1 rfl rfl
  ⟨rfl, rfl, key.1, key.2 (by decide) (by
    intro x hx
    simp only [List.cons_append, List.nil_append, List.mem_cons, List.mem_singleton,
      List.not_mem_nil, or_false] at hx
    rcases hx with rfl | rfl | rfl <;> rfl)⟩

/-- The second block of `thread_pool_tests.cpp` under a round-robin schedule:
`results[i].get() == i` for the 20 tasks on the 2-worker pool. -/
theorem thread_pool_test_twenty :
    ∀ i ∈ List.range 20,
      ((testPoolTwenty 30).bind fun p => p.get i) = some (Except.ok (i : Int)) := by
  set_option maxRecDepth 100000 in decide

/-! ## `dijkstra` -/

theorem INF_eq : INF = 536870911 := by decide

theorem wrapInt32_small {x : Int} (h0 : 0 ≤ x) (h1 : x ≤ 2 * INF) : wrapInt32 x = x := by
  rw [INF_eq] at h1
  unfold wrapInt32
  omega

theorem getD_set_self {l : List Int} {i : Nat} (h : i < l.length) (a : Int) :
    (l.set i a).getD i 0 = a := by
  simp [List.getD_eq_getElem?_getD, List.getElem?_set_self h]

theorem getD_set_ne {l : List Int} {i j : Nat} (h : i ≠ j) (a : Int) :
    (l.set i a).getD j 0 = l.getD j 0 := by
  simp [List.getD_eq_getElem?_getD, List.getElem?_set_ne h]

theorem sum_set : ∀ (l : List Int) (i : Nat) (a : Int), i < l.length →
    (l.set i a).sum = l.sum - l.getD i 0 + a
  | [], _, _, h => by simp at h
  | x :: l, 0, a, _ => by
    simp only [List.set_cons_zero, List.sum_cons, List.getD_cons_zero]
    ring
  | x :: l, i + 1, a, h => by
    have ih := sum_set l i a (by simpa using h)
    simp only [List.set_cons_succ, List.sum_cons, List.getD_cons_succ, ih]
    ring

theorem pqTop_fold_mem : ∀ (xs : List (Int × Nat)) (x : Int × Nat),
    xs.foldl (fun m y => if pairLt y m then y else m) x ∈ x :: xs
  | [], x => by simp
  | y :: xs, x => by
    simp only [List.foldl_cons]
    have ih := pqTop_fold_mem xs (if pairLt y x then y else x)
    rcases List.mem_cons.mp ih with h | h
    · rw [h]
      split
      · exact List.mem_cons_of_mem _ (List.mem_cons_self _ _)
      · exact List.mem_cons_self _ _
    · exact List.mem_cons_of_mem _ (List.mem_cons_of_mem _ h)

theorem pqTop_mem {pq : List (Int × Nat)} {m : Int × Nat} (h : pqTop pq = some m) :
    m ∈ pq := by
  cases pq with
  | nil => simp [pqTop] at h
  | cons x xs =>
    simp only [pqTop, Option.some.injEq] at h
    rw [← h]
    exact pqTop_fold_mem xs x

theorem pqTop_eq_none {pq : List (Int × Nat)} (h : pqTop pq = none) : pq = [] := by
  cases pq with
  | nil => rfl
  | cons x xs => simp [pqTop] at h

theorem relax_mono (d : Int) (st : List Int × List (Int × Nat)) (e : Nat × Int)
    (v : Nat) : (relax d st e).1.getD v 0 ≤ st.1.getD v 0 := by
  unfold relax
  simp only
  split
  · rename_i hgt
    by_cases hv : e.1 = v
    · subst hv
      by_cases hlt : e.1 < st.1.length
      · rw [getD_set_self hlt]
        exact le_of_lt hgt
      · rw [List.set_eq_of_length_le (Nat.le_of_not_lt hlt)]
    · rw [getD_set_ne hv]
  · exact le_refl _

theorem relax_fold_mono (d : Int) : ∀ (es : List (Nat × Int))
    (st : List Int × List (Int × Nat)) (v : Nat),
    (es.foldl (relax d) st).1.getD v 0 ≤ st.1.getD v 0
  | [], _, _ => le_refl _
  | e :: es, st, v => by
    simp only [List.foldl_cons]
    exact le_trans (relax_fold_mono d es _ v) (relax_mono d st e v)

theorem relax_step {g : AdjList} {src u : Nat} {d : Int} {dist0 : List Int}
    {pq0 : List (Int × Nat)} {st : List Int × List (Int × Nat)} (e : Nat × Int)
    (hd0 : 0 ≤ d) (hdI : d ≤ INF) (hpath : d = INF ∨ GraphPath g src u d)
    (he : e ∈ g.getD u []) (hv : e.1 < g.length) (hw0 : 0 ≤ e.2) (hwI : e.2 < INF)
    (h : RelaxInv g src dist0 pq0 st) :
    RelaxInv g src dist0 pq0 (relax d st e) ∧ (relax d st e).1.getD e.1 0 ≤ d + e.2 := by
  have hwrap : wrapInt32 (d + e.2) = d + e.2 := wrapInt32_small (by omega) (by omega)
  have hlt : e.1 < st.1.length := by rw [h.len]; exact hv
  unfold relax
  simp only [hwrap]
  split
  · rename_i hgt
    have hold := h.range e.1 hv
    have hself : (st.1.set e.1 (d + e.2)).getD e.1 0 = d + e.2 := getD_set_self hlt _
    refine ⟨⟨?_, ?_, ?_, ?_, ?_, ?_, ?_⟩, ?_⟩
    · simpa using h.len
    · intro v hvn
      by_cases hve : e.1 = v
      · subst hve
        simp only [hself]
        omega
      · simp only [getD_set_ne hve]
        exact h.range v hvn
    · intro v hvn
      by_cases hve : e.1 = v
      · subst hve
        simp only [hself]
        right
        rcases hpath with hp | hp
        · omega
        · exact GraphPath.snoc hp he
      · simp only [getD_set_ne hve]
        exact h.sound v hvn
    · intro e1 he1
      rcases List.mem_append.mp he1 with h1 | h1
      · exact h.queued e1 h1
      · rw [List.mem_singleton.mp h1]
        exact hv
    · intro e1 he1
      exact List.mem_append_left _ (h.kept e1 he1)
    · intro v hvn
      by_cases hve : e.1 = v
      · subst hve
        right
        exact List.mem_append_right _ (List.mem_singleton.mpr rfl)
      · simp only [getD_set_ne hve]
        rcases h.pushed v hvn with h1 | h1
        · exact Or.inl h1
        · exact Or.inr (List.mem_append_left _ h1)
    · have hm := h.measure
      simp only [sum_set st.1 e.1 (d + e.2) hlt, List.length_append, List.length_singleton,
        Nat.cast_add, Nat.cast_one]
      omega
    · simp only [hself]
      exact le_refl _
  · rename_i hgt
    exact ⟨h, not_lt.mp hgt⟩

theorem relax_fold {g : AdjList} {src u : Nat} {d : Int} {dist0 : List Int}
    {pq0 : List (Int × Nat)} (hd0 : 0 ≤ d) (hdI : d ≤ INF)
    (hpath : d = INF ∨ GraphPath g src u d) :
    ∀ (es : List (Nat × Int)) (st : List Int × List (Int × Nat)),
      (∀ e ∈ es, e ∈ g.getD u [] ∧ e.1 < g.length ∧ 0 ≤ e.2 ∧ e.2 < INF) →
      RelaxInv g src dist0 pq0 st →
      RelaxInv g src dist0 pq0 (es.foldl (relax d) st) ∧
        ∀ e ∈ es, (es.foldl (relax d) st).1.getD e.1 0 ≤ d + e.2
  | [], st, _, h => ⟨h, fun e he => by simp at he⟩
  | e :: es, st, hes, h => by
    obtain ⟨he, hv, hw0, hwI⟩ := hes e (List.mem_cons_self _ _)
    obtain ⟨h1, hle1⟩ := relax_step e hd0 hdI hpath he hv hw0 hwI h
    obtain ⟨h2, hle2⟩ := relax_fold hd0 hdI hpath es (relax d st e)
      (fun x hx => hes x (List.mem_cons_of_mem _ hx)) h1
    simp only [List.foldl_cons]
    refine ⟨h2, ?_⟩
    intro x hx
    rcases List.mem_cons.mp hx with rfl | hx
    · exact le_trans (relax_fold_mono d es _ _) hle1
    · exact hle2 x hx

theorem dijkstra_iter_skip {g : AdjList} {src u : Nat} {d : Int} {dist : List Int}
    {pq : List (Int × Nat)} (hinv : DijkstraInv g src dist pq)
    (hne : d ≠ dist.getD u 0) : DijkstraInv g src dist (pq.erase (d, u)) := by
  refine ⟨hinv.len, hinv.range, hinv.source, hinv.sound, ?_, ?_⟩
  · intro e he
    exact hinv.queued e (List.mem_of_mem_erase he)
  · intro v hv hvI
    rcases hinv.closed v hv hvI with h | h
    · left
      refine (List.mem_erase_of_ne ?_).mpr h
      intro heq
      simp only [Prod.mk.injEq] at heq
      exact hne (by rw [← heq.1, heq.2])
    · exact Or.inr h

theorem getD_mem_of_lt {g : AdjList} {u : Nat} (hu : u < g.length) : g.getD u [] ∈ g := by
  rw [List.getD_eq_getElem?_getD, List.getElem?_eq_getElem hu]
  exact List.getElem_mem hu

theorem dijkstra_iter_relax {g : AdjList} {src u : Nat} {dist : List Int}
    {pq : List (Int × Nat)} (hg : ValidGraph g) (hsrc : src < g.length)
    (hinv : DijkstraInv g src dist pq) (hmem : (dist.getD u 0, u) ∈ pq) :
    DijkstraInv g src
        ((g.getD u []).foldl (relax (dist.getD u 0)) (dist, pq.erase (dist.getD u 0, u))).1
        ((g.getD u []).foldl (relax (dist.getD u 0)) (dist, pq.erase (dist.getD u 0, u))).2 ∧
      ((g.getD u []).foldl (relax (dist.getD u 0)) (dist, pq.erase (dist.getD u 0, u))).1.sum +
        ((g.getD u []).foldl (relax (dist.getD u 0)) (dist, pq.erase (dist.getD u 0, u))).2.length
        ≤ dist.sum + (pq.erase (dist.getD u 0, u)).length := by
  have hu : u < g.length := hinv.queued _ hmem
  have hr := hinv.range u hu
  have hstart : RelaxInv g src dist (pq.erase (dist.getD u 0, u))
      (dist, pq.erase (dist.getD u 0, u)) :=
    ⟨hinv.len, hinv.range, hinv.sound, fun e he => hinv.queued e (List.mem_of_mem_erase he),
      fun e he => he, fun v _ => Or.inl rfl, le_refl _⟩
  have hes : ∀ e ∈ g.getD u [], e ∈ g.getD u [] ∧ e.1 < g.length ∧ 0 ≤ e.2 ∧ e.2 < INF :=
    fun e he => ⟨he, hg _ (getD_mem_of_lt hu) e he⟩
  obtain ⟨hfin, hrel⟩ := relax_fold hr.1 hr.2 (hinv.sound u hu) (g.getD u []) _ hes hstart
  have hmono := relax_fold_mono (dist.getD u 0) (g.getD u [])
    (dist, pq.erase (dist.getD u 0, u))
  refine ⟨⟨hfin.len, hfin.range, ?_, hfin.sound, hfin.queued, ?_⟩, hfin.measure⟩
  · have h1 := hmono src
    have h2 := (hfin.range src hsrc).1
    have h3 := hinv.source
    simp only at h1
    omega
  · intro v hv hvI
    rcases hfin.pushed v hv with hsame | hq
    · by_cases hvu : v = u
      · subst hvu
        right
        intro e he
        rw [hsame]
        exact hrel e he
      · rw [hsame] at hvI ⊢
        rcases hinv.closed v hv hvI with h | h
        · left
          apply hfin.kept
          refine (List.mem_erase_of_ne ?_).mpr h
          intro heq
          simp only [Prod.mk.injEq] at heq
          exact hvu heq.2
        · right
          intro e he
          exact le_trans (hmono e.1) (h e he)
    · exact Or.inl hq

theorem dijkstraLoop_inv {g : AdjList} {src : Nat} (hg : ValidGraph g) (hsrc : src < g.length) :
    ∀ (fuel : Nat) (dist : List Int) (pq : List (Int × Nat)) (out : List Int),
      DijkstraInv g src dist pq → dijkstraLoop g fuel dist pq = some out →
      DijkstraInv g src out []
  | 0, _, _, _, _, h => by simp [dijkstraLoop] at h
  | fuel + 1, dist, pq, out, hinv, h => by
    unfold dijkstraLoop at h
    cases hp : pqTop pq with
    | none =>
      rw [hp] at h
      simp only [Option.some.injEq] at h
      rw [← h, ← pqTop_eq_none hp]
      exact hinv
    | some m =>
      obtain ⟨d, u⟩ := m
      rw [hp] at h
      simp only at h
      have hmem := pqTop_mem hp
      split at h
      · rename_i hne
        exact dijkstraLoop_inv hg hsrc fuel _ _ out (dijkstra_iter_skip hinv hne) h
      · rename_i heq
        have heq : d = dist.getD u 0 := not_not.mp heq
        subst heq
        exact dijkstraLoop_inv hg hsrc fuel _ _ out
          (dijkstra_iter_relax hg hsrc hinv hmem).1 h

theorem dist_sum_nonneg {g : AdjList} {src : Nat} {dist : List Int} {pq : List (Int × Nat)}
    (hinv : DijkstraInv g src dist pq) : 0 ≤ dist.sum := by
  apply List.sum_nonneg
  intro x hx
  obtain ⟨i, hi⟩ := List.mem_iff_getElem?.mp hx
  have hlt : i < dist.length := (List.getElem?_eq_some_iff.mp hi).1
  have := (hinv.range i (by rw [← hinv.len]; exact hlt)).1
  simpa [List.getD_eq_getElem?_getD, hi] using this

theorem dijkstraLoop_returns {g : AdjList} {src : Nat} (hg : ValidGraph g)
    (hsrc : src < g.length) :
    ∀ (fuel : Nat) (dist : List Int) (pq : List (Int × Nat)),
      DijkstraInv g src dist pq → dist.sum + pq.length < fuel →
      ∃ out, dijkstraLoop g fuel dist pq = some out
  | 0, dist, pq, hinv, h => by
    have := dist_sum_nonneg hinv
    simp only [Nat.cast_zero] at h
    omega
  | fuel + 1, dist, pq, hinv, h => by
    unfold dijkstraLoop
    cases hp : pqTop pq with
    | none => exact ⟨dist, rfl⟩
    | some m =>
      obtain ⟨d, u⟩ := m
      simp only
      have hmem := pqTop_mem hp
      have hlen : ((pq.erase (d, u)).length : Int) = pq.length - 1 := by
        have h1 := List.length_erase_of_mem hmem
        have h2 : 0 < pq.length := List.length_pos_of_mem hmem
        omega
      simp only [Nat.cast_add, Nat.cast_one] at h
      split
      · rename_i hne
        exact dijkstraLoop_returns hg hsrc fuel _ _ (dijkstra_iter_skip hinv hne) (by omega)
      · rename_i heq
        have heq : d = dist.getD u 0 := not_not.mp heq
        subst heq
        obtain ⟨hinv1, hm⟩ := dijkstra_iter_relax hg hsrc hinv hmem
        exact dijkstraLoop_returns hg hsrc fuel _ _ hinv1 (by omega)

theorem getD_replicate_INF {n v : Nat} (hv : v < n) : (List.replicate n INF).getD v 0 = INF := by
  simp [List.getD_eq_getElem?_getD, List.getElem?_replicate, hv]

theorem dijkstra_init_inv {g : AdjList} {src : Nat} (hsrc : src < g.length) :
    DijkstraInv g src ((List.replicate g.length INF).set src 0) [(0, src)] := by
  have hlt : src < (List.replicate g.length INF).length := by simpa using hsrc
  have hself : ((List.replicate g.length INF).set src 0).getD src 0 = 0 := getD_set_self hlt 0
  have hother : ∀ v, v < g.length → src ≠ v →
      ((List.replicate g.length INF).set src 0).getD v 0 = INF := by
    intro v hv hne
    rw [getD_set_ne hne, getD_replicate_INF hv]
  have hI : (0 : Int) ≤ INF := by decide
  refine ⟨by simp, ?_, hself, ?_, ?_, ?_⟩
  · intro v hv
    by_cases hne : src = v
    · subst hne
      rw [hself]
      exact ⟨le_refl _, hI⟩
    · rw [hother v hv hne]
      exact ⟨hI, le_refl _⟩
  · intro v hv
    by_cases hne : src = v
    · subst hne
      rw [hself]
      exact Or.inr GraphPath.nil
    · exact Or.inl (hother v hv hne)
  · intro e he
    rw [List.mem_singleton.mp he]
    exact hsrc
  · intro v hv hvI
    by_cases hne : src = v
    · subst hne
      rw [hself]
      exact Or.inl (List.mem_singleton.mpr rfl)
    · exact absurd (hother v hv hne) hvI

/-- At the end of the loop every path of weight below `INF` is matched by the
computed distance of its end vertex. -/
theorem dijkstra_final_le {g : AdjList} {src : Nat} {dist : List Int} (hg : ValidGraph g)
    (hsrc : src < g.length) (hinv : DijkstraInv g src dist []) :
    ∀ {v : Nat} {W : Int}, GraphPath g src v W → W < INF → v < g.length ∧ dist.getD v 0 ≤ W := by
  intro v W hp
  induction hp with
  | nil =>
    intro _
    exact ⟨hsrc, le_of_eq hinv.source⟩
  | @snoc u v d w _ he ih =>
    intro hW
    have hu : u < g.length := by
      by_contra hcon
      rw [List.getD_eq_getElem?_getD, List.getElem?_eq_none (Nat.le_of_not_lt hcon)] at he
      simp at he
    obtain ⟨hv, hw0, hwI⟩ := hg _ (getD_mem_of_lt hu) _ he
    simp only at hv hw0 hwI
    obtain ⟨-, hle⟩ := ih (by omega)
    refine ⟨hv, ?_⟩
    rcases hinv.closed u hu (by omega) with h | h
    · simp at h
    · have := h _ he
      simp only at this
      omega

/-- C2: for a graph whose edges point to vertices and carry weights in
`[0, INF)` (`INF = INT_MAX / 4`) and a valid source, `dijkstra` returns once
the loop is given enough iterations, and what it returns has one entry per
vertex, `dist[src] == 0`, and for every vertex reachable by a path of weight
below `INF` the entry is the least weight of a path from the source. -/
theorem dijkstra_shortest_paths (g : AdjList) (src : Nat) (hsrc : src < g.length)
    (hg : ValidGraph g) :
    (∃ fuel₀, ∀ fuel, fuel₀ ≤ fuel → ∃ dist, dijkstra fuel g src = some dist) ∧
    ∀ fuel dist, dijkstra fuel g src = some dist →
      dist.length = g.length ∧ dist.getD src 0 = 0 ∧
      ∀ v W, GraphPath g src v W → W < INF →
        GraphPath g src v (dist.getD v 0) ∧
          ∀ W1, GraphPath g src v W1 → dist.getD v 0 ≤ W1 := by
  have hinit : DijkstraInv g src ((List.replicate g.length INF).set src 0) [(0, src)] :=
    dijkstra_init_inv hsrc
  constructor
  · refine ⟨(((List.replicate g.length INF).set src 0).sum + 2).toNat, ?_⟩
    intro fuel hfuel
    have h0 := dist_sum_nonneg hinit
    exact dijkstraLoop_returns hg hsrc fuel _ _ hinit (by simp only [List.length_singleton]; omega)
  · intro fuel dist hd
    have hfin := dijkstraLoop_inv hg hsrc fuel _ _ dist hinit hd
    refine ⟨hfin.len, hfin.source, ?_⟩
    intro v W hp hW
    obtain ⟨hv, hle⟩ := dijkstra_final_le hg hsrc hfin hp hW
    constructor
    · rcases hfin.sound v hv with h | h
      · omega
      · exact h
    · intro W1 hp1
      by_cases h1 : W1 < INF
      · exact (dijkstra_final_le hg hsrc hfin hp1 h1).2
      · omega

/-- C2 on `test_dijkstra_simple`: the result is `[0, 1, 3, 4]` and these are
the least path weights. -/
theorem dijkstra_shortest_paths_witness :
    0 < testGraph.length ∧ ValidGraph testGraph ∧
    dijkstra 20 testGraph 0 = some [0, 1, 3, 4] ∧
    ∀ v W, GraphPath testGraph 0 v W → W < INF →
      GraphPath testGraph 0 v (([0, 1, 3, 4] : List Int).getD v 0) ∧
        ∀ W1, GraphPath testGraph 0 v W1 → ([0, 1, 3, 4] : List Int).getD v 0 ≤ W1 :=
  ⟨by decide, by unfold ValidGraph; decide, by decide,
    ((dijkstra_shortest_paths testGraph 0 (by decide) (by unfold ValidGraph; decide)).2
      20 [0, 1, 3, 4] (by decide)).2.2⟩

/-! ## Claim order, single execution -/

/-- What one action of a worker does to the queue and to the record of
claims: nothing, or it removes the head of the queue and records that job. -/
theorem ThreadPool.worker_loop_claims {E V : Type} (p : ThreadPool E V) (i : Nat) :
    ((p.worker_loop i).tasks = p.tasks ∧ (p.worker_loop i).claimLog = p.claimLog) ∨
    ∃ job rest, p.tasks = job :: rest ∧ (p.worker_loop i).tasks = rest ∧
      (p.worker_loop i).claimLog = p.claimLog ++ [(i, job)] := by
  unfold ThreadPool.worker_loop
  cases hw : p.workers[i]? with
  | none => exact Or.inl ⟨rfl, rfl⟩
  | some w =>
    simp only
    cases hpc : w.pc with
    | loopHead =>
      simp only [ThreadPool.setPc, hw]
      split <;> exact Or.inl ⟨rfl, rfl⟩
    | waiting =>
      simp only [ThreadPool.setPc, hw]
      split
      · cases hq : p.tasks with
        | nil => exact Or.inl ⟨rfl, rfl⟩
        | cons job rest =>
          right
          refine ⟨job, rest, ?_, ?_, ?_⟩ <;> rfl
      · exact Or.inl ⟨rfl, rfl⟩
    | exited => exact Or.inl ⟨rfl, rfl⟩
    | running job =>
      cases job with
      | none =>
        left
        simp [ThreadPool.setPc, hw]
      | some task =>
        left
        have h1 : (p.invoke i task).workers = p.workers ∧ (p.invoke i task).tasks = p.tasks ∧
            (p.invoke i task).claimLog = p.claimLog := by
          unfold ThreadPool.invoke
          split
          · split <;> exact ⟨rfl, rfl, rfl⟩
          · exact ⟨rfl, rfl, rfl⟩
        simp only [ThreadPool.setPc, h1.1, hw]
        exact ⟨h1.2.1, h1.2.2⟩

/-- C3: `submit` puts the new job at the back of the queue and leaves the jobs
already queued as they are; an action of a worker either leaves queue and
claims alone or takes the job at the front of the queue; and in every state
reached from a constructed pool, under any schedule and any number of workers,
the jobs claimed so far followed by the queue are the submitted jobs in
submission order. -/
theorem claims_follow_submission_order {E V : Type} (n : Nat) (p₀ : ThreadPool E V)
    (acts : List (PoolAction E V)) (hc : ThreadPool.ctor n = Except.ok p₀) :
    (∀ {A : Type} (f : A → Except E V) (a : A), ∃ q,
      (p₀.exec acts).submit f a = Except.ok (q, (p₀.exec acts).heap.length) ∧
      q.tasks = (p₀.exec acts).tasks ++ [(p₀.exec acts).heap.length] ∧
      q.claimLog = (p₀.exec acts).claimLog) ∧
    (∀ i, (((p₀.exec acts).worker_loop i).tasks = (p₀.exec acts).tasks ∧
        ((p₀.exec acts).worker_loop i).claimLog = (p₀.exec acts).claimLog) ∨
      ∃ job rest, (p₀.exec acts).tasks = job :: rest ∧
        ((p₀.exec acts).worker_loop i).tasks = rest ∧
        ((p₀.exec acts).worker_loop i).claimLog = (p₀.exec acts).claimLog ++ [(i, job)]) ∧
    (p₀.exec acts).claimLog.map Prod.snd ++ (p₀.exec acts).tasks
      = List.range (submitted acts).length := by
  have hinv0 := ThreadPool.inv_ctor n p₀ hc
  refine ⟨?_, fun i => ThreadPool.worker_loop_claims _ i, ?_⟩
  · intro A f a
    exact ⟨_, rfl, rfl, rfl⟩
  rw [(ThreadPool.inv_exec hinv0 acts).fifo]
  congr 1
  have hlen : ∀ (acts : List (PoolAction E V)) (p : ThreadPool E V), PoolInv p →
      (p.exec acts).heap.length = p.heap.length + (submitted acts).length := by
    intro acts
    induction acts with
    | nil => intro p _; simp [ThreadPool.exec, submitted]
    | cons a acts ih =>
      intro p hinv
      rw [ThreadPool.exec_cons, ih _ (ThreadPool.inv_step hinv a)]
      cases a with
      | submit f =>
        simp [ThreadPool.step, hinv.alive, ThreadPool.submit, submitted]
        omega
      | dtor => simp [ThreadPool.step, hinv.alive, ThreadPool.dtor, submitted]
      | request_stop i =>
        have : (p.request_stop i).heap = p.heap := by
          unfold ThreadPool.request_stop
          split <;> rfl
        simp [ThreadPool.step, hinv.alive, this, submitted]
      | worker i =>
        have h1 := (ThreadPool.inv_worker_loop hinv i).fifo
        have h2 := hinv.fifo
        have h3 : ((p.worker_loop i).claimLog.map Prod.snd ++ (p.worker_loop i).tasks).length
            = (p.claimLog.map Prod.snd ++ p.tasks).length := by
          rcases ThreadPool.worker_loop_claims p i with h | ⟨job, rest, hq, hq1, hc1⟩
          · rw [h.1, h.2]
          · rw [hq, hq1, hc1]
            simp
        rw [h1, h2, List.length_range, List.length_range] at h3
        simp [ThreadPool.step, hinv.alive, h3, submitted]
  have := hlen acts p₀ hinv0
  simp only [ThreadPool.ctor, Except.ok.injEq] at hc
  subst hc
  simpa using this

/-- C3 at the 4-worker test pool: three submits, then workers 3 and 1 claim
jobs 0 and 1 in that order and job 2 stays queued. -/
theorem claims_follow_submission_order_witness :
    ThreadPool.ctor 4 = Except.ok testPool ∧
    (testPool.exec [PoolAction.submit fun _ => Except.ok 42,
        PoolAction.submit fun _ => Except.ok 8, PoolAction.submit fun _ => Except.ok 7,
        PoolAction.worker 3, PoolAction.worker 1, PoolAction.worker 3,
        PoolAction.worker 1]).claimLog = [(3, 0), (1, 1)] ∧
    (testPool.exec [PoolAction.submit fun _ => Except.ok 42,
        PoolAction.submit fun _ => Except.ok 8, PoolAction.submit fun _ => Except.ok 7,
        PoolAction.worker 3, PoolAction.worker 1, PoolAction.worker 3,
        PoolAction.worker 1]).claimLog.map Prod.snd ++
      (testPool.exec [PoolAction.submit fun _ => Except.ok 42,
        PoolAction.submit fun _ => Except.ok 8, PoolAction.submit fun _ => Except.ok 7,
        PoolAction.worker 3, PoolAction.worker 1, PoolAction.worker 3,
        PoolAction.worker 1]).tasks = List.range 3 :=
  ⟨rfl, by decide,
    (claims_follow_submission_order 4 testPool [PoolAction.submit fun _ => Except.ok 42,
        PoolAction.submit fun _ => Except.ok 8, PoolAction.submit fun _ => Except.ok 7,
        PoolAction.worker 3, PoolAction.worker 1, PoolAction.worker 3,
        PoolAction.worker 1] rfl).2.2⟩

/-- C4: in every state reached from a constructed pool, under any schedule
and any number of workers, no job was claimed twice (so no two workers claimed
the same job), no claimed job is still in the queue, no job was run twice, and
the process was not terminated by a second invocation of a packaged task. -/
theorem task_claimed_and_run_at_most_once {E V : Type} (n : Nat) (p₀ : ThreadPool E V)
    (acts : List (PoolAction E V)) (hc : ThreadPool.ctor n = Except.ok p₀) :
    ((p₀.exec acts).claimLog.map Prod.snd).Nodup ∧
    (∀ job ∈ (p₀.exec acts).claimLog.map Prod.snd, job ∉ (p₀.exec acts).tasks) ∧
    ((p₀.exec acts).runLog.map Prod.snd).Nodup ∧
    (∀ job ∈ (p₀.exec acts).runLog.map Prod.snd, job ∈ (p₀.exec acts).claimLog.map Prod.snd) ∧
    (p₀.exec acts).terminated = false := by
  have hinv := ThreadPool.inv_exec (ThreadPool.inv_ctor n p₀ hc) acts
  have hnd := List.nodup_range (p₀.exec acts).heap.length
  rw [← hinv.fifo] at hnd
  have hnd2 : ((p₀.exec acts).runLog.map Prod.snd ++ (p₀.exec acts).inflight).Nodup :=
    hinv.flight.nodup_iff.mpr (ThreadPool.claimed_nodup hinv)
  exact ⟨ThreadPool.claimed_nodup hinv, fun job hj hq => (List.nodup_append.mp hnd).2.2 hj hq,
    (List.nodup_append.mp hnd2).1, fun job hj => ThreadPool.ran_claimed hinv hj, hinv.alive⟩

/-- C4 at the 4-worker test pool with three workers competing for two jobs. -/
theorem task_claimed_and_run_at_most_once_witness :
    ThreadPool.ctor 4 = Except.ok testPool ∧
    (testPool.exec [PoolAction.submit fun _ => Except.ok 42,
        PoolAction.submit fun _ => Except.ok 8, PoolAction.worker 0, PoolAction.worker 1,
        PoolAction.worker 2, PoolAction.worker 1, PoolAction.worker 2, PoolAction.worker 0,
        PoolAction.worker 2, PoolAction.worker 1, PoolAction.worker 0]).runLog
      = [(2, 1), (1, 0)] ∧
    ((testPool.exec [PoolAction.submit fun _ => Except.ok 42,
        PoolAction.submit fun _ => Except.ok 8, PoolAction.worker 0, PoolAction.worker 1,
        PoolAction.worker 2, PoolAction.worker 1, PoolAction.worker 2, PoolAction.worker 0,
        PoolAction.worker 2, PoolAction.worker 1, PoolAction.worker 0]).runLog.map
      Prod.snd).Nodup :=
  ⟨rfl, by decide,
    (task_claimed_and_run_at_most_once 4 testPool [PoolAction.submit fun _ => Except.ok 42,
        PoolAction.submit fun _ => Except.ok 8, PoolAction.worker 0, PoolAction.worker 1,
        PoolAction.worker 2, PoolAction.worker 1, PoolAction.worker 2, PoolAction.worker 0,
        PoolAction.worker 2, PoolAction.worker 1, PoolAction.worker 0] rfl).2.2.1⟩

/-! ## Shutdown -/

/-- C5, counterexample: a pool of one worker that has not run yet, one task
submitted, then the destructor: `stopping` is set, the stop of worker 0 is
requested, the worker leaves its loop at the first test of
`st.stop_requested()`.  All workers have exited and the one submitted task was
never claimed and never run. -/
theorem shutdown_exits_with_queued_task :
    (ThreadPool.ctor 1 : Except PoolError (ThreadPool String Int)).map
      (fun p =>
        let q := p.exec [PoolAction.submit fun _ => Except.ok 42, PoolAction.dtor,
          PoolAction.request_stop 0, PoolAction.worker 0]
        (q.workers, q.stopping, q.heap.length, q.tasks, q.claimLog, q.runLog))
      = Except.ok ([{ pc := Pc.exited, stop := true }], true, 1, [0], [], []) := by
  rfl

/-- The control point a worker reaches by one action is `exited` only if it
was `exited` already or the worker was at the loop head with a stop
requested. -/
theorem ThreadPool.worker_loop_exit {E V : Type} (p : ThreadPool E V) (i : Nat) (w : Worker)
    (hw : p.workers[i]? = some w) :
    ∃ w1, (p.worker_loop i).workers[i]? = some w1 ∧
      (w1.pc = Pc.exited → w.pc = Pc.exited ∨ (w.pc = Pc.loopHead ∧ w.stop = true)) := by
  have hlt : i < p.workers.length := (List.getElem?_eq_some_iff.mp hw).1
  have hset : ∀ pc, (p.workers.set i { w with pc := pc })[i]? = some { w with pc := pc } :=
    fun pc => List.getElem?_set_self hlt
  unfold ThreadPool.worker_loop
  simp only [hw]
  cases hpc : w.pc with
  | loopHead =>
    simp only [ThreadPool.setPc, hw]
    by_cases hs : w.stop = true
    · rw [if_pos hs]
      exact ⟨_, hset Pc.exited, fun _ => by simp [hs]⟩
    · rw [if_neg hs]
      refine ⟨_, hset Pc.waiting, ?_⟩
      intro h
      cases h
  | waiting =>
    simp only [ThreadPool.setPc, hw]
    split
    · cases hq : p.tasks with
      | nil =>
        refine ⟨_, hset Pc.loopHead, ?_⟩
        intro h
        cases h
      | cons job rest =>
        refine ⟨_, hset (Pc.running (some job)), ?_⟩
        intro h
        cases h
    · refine ⟨w, hw, ?_⟩
      intro h
      rw [hpc] at h
      cases h
  | exited => exact ⟨w, hw, fun _ => Or.inl rfl⟩
  | running job =>
    cases job with
    | none =>
      simp only [ThreadPool.setPc, hw]
      refine ⟨_, hset Pc.loopHead, ?_⟩
      intro h
      cases h
    | some task =>
      have hwk : (p.invoke i task).workers = p.workers := by
        unfold ThreadPool.invoke
        split
        · split <;> rfl
        · rfl
      simp only [ThreadPool.setPc, hwk, hw]
      refine ⟨_, hset Pc.loopHead, ?_⟩
      intro h
      cases h

/-- C5 (amended): shutdown does not drain the queue.  A worker at the loop
head on whose stop token a stop has been requested leaves its loop whatever
the queue holds, and that action leaves the queue, the packaged tasks and the
records of claims and runs as they are; an action makes a worker exit in no
other case, so never while its stop has not been requested; a worker that has
exited does nothing further; and a waiting worker that is scheduled with a
non-empty queue claims the job at its head. -/
theorem worker_exit_ignores_queue {E V : Type} (p : ThreadPool E V) (i : Nat) (w : Worker)
    (hw : p.workers[i]? = some w) :
    (w.pc = Pc.loopHead → w.stop = true →
      p.worker_loop i
        = { p with workers := p.workers.set i { pc := Pc.exited, stop := true } }) ∧
    (∀ w1, (p.worker_loop i).workers[i]? = some w1 → w1.pc = Pc.exited →
      w.pc = Pc.exited ∨ (w.pc = Pc.loopHead ∧ w.stop = true)) ∧
    (w.pc = Pc.exited → p.worker_loop i = p) ∧
    (w.pc = Pc.waiting → ∀ job rest, p.tasks = job :: rest →
      (p.worker_loop i).workers[i]? = some { pc := Pc.running (some job), stop := w.stop } ∧
      (p.worker_loop i).tasks = rest ∧
      (p.worker_loop i).claimLog = p.claimLog ++ [(i, job)]) := by
  refine ⟨?_, ?_, ?_, ?_⟩
  · intro hpc hs
    simp [ThreadPool.worker_loop, hw, hpc, hs, ThreadPool.setPc]
  · intro w1 hw1 hex
    obtain ⟨w2, hw2, h2⟩ := ThreadPool.worker_loop_exit p i w hw
    rw [hw2] at hw1
    simp only [Option.some.injEq] at hw1
    subst hw1
    exact h2 hex
  · intro hpc
    simp [ThreadPool.worker_loop, hw, hpc]
  · intro hpc job rest hq
    obtain ⟨h1, h2⟩ := ThreadPool.wl_claim hw hpc hq
    refine ⟨h1, h2, ?_⟩
    simp [ThreadPool.worker_loop, hw, hpc, hq]

/-- C5 (amended) on the pool of one worker of the counterexample, with one
task queued, `stopping` set and the stop of worker 0 requested: the worker
exits and the task stays unclaimed. -/
theorem worker_exit_ignores_queue_witness :
    ({ workers := [{ pc := Pc.loopHead, stop := true }], tasks := [0], stopping := true,
       heap := [{ fn := fun _ => Except.ok 42, result := none }], terminated := false,
       claimLog := [], runLog := [] } : ThreadPool String Int).workers[0]?
      = some { pc := Pc.loopHead, stop := true } ∧
    ({ workers := [{ pc := Pc.loopHead, stop := true }], tasks := [0], stopping := true,
       heap := [{ fn := fun _ => Except.ok 42, result := none }], terminated := false,
       claimLog := [], runLog := [] } : ThreadPool String Int).worker_loop 0
      = { workers := [{ pc := Pc.exited, stop := true }], tasks := [0], stopping := true,
          heap := [{ fn := fun _ => Except.ok 42, result := none }], terminated := false,
          claimLog := [], runLog := [] } :=
  ⟨rfl,
    (worker_exit_ignores_queue
      ({ workers := [{ pc := Pc.loopHead, stop := true }], tasks := [0], stopping := true,
         heap := [{ fn := fun _ => Except.ok 42, result := none }], terminated := false,
         claimLog := [], runLog := [] } : ThreadPool String Int) 0
      { pc := Pc.loopHead, stop := true } rfl).1 rfl rfl⟩

/-- C7, counterexample: constructing a pool with worker count 0 does not fail,
it yields a pool without workers. -/
theorem ctor_zero_succeeds :
    (ThreadPool.ctor 0 : Except PoolError (ThreadPool String Int)).map
      (fun p => (p.workers, p.tasks, p.stopping))
      = Except.ok ([], [], false) ∧
    (ThreadPool.ctor 0 : Except PoolError (ThreadPool String Int)).map
      (fun p => (p.workers, p.tasks, p.stopping))
      ≠ Except.error PoolError.InvalidConfiguration := by
  decide

/-- C7 (amended): constructing a pool never fails: for every worker count `n`,
0 included, the constructor yields a pool with exactly `n` workers, all at the
top of their loop, an empty queue and `stopping` unset. -/
theorem ctor_never_fails {E V : Type} (n : Nat) :
    ∃ p : ThreadPool E V, ThreadPool.ctor n = Except.ok p ∧ p.workers.length = n ∧
      (∀ w ∈ p.workers, w = { pc := Pc.loopHead, stop := false }) ∧
      p.tasks = [] ∧ p.stopping = false := by
  refine ⟨_, rfl, by simp, ?_, rfl, rfl⟩
  intro w hw
  exact (List.mem_replicate.mp hw).2

/-! ## Failing tasks -/

theorem ThreadPool.ready_ran {E V : Type} {p : ThreadPool E V} (hinv : PoolInv p) {h : Nat}
    (hg : p.get h ≠ none) : h ∈ p.runLog.map Prod.snd := by
  unfold ThreadPool.get at hg
  cases ht : p.heap[h]? with
  | none => simp [ht] at hg
  | some t =>
    rcases hinv.results h t ht with h1 | h1
    · simp [ht, h1.1] at hg
    · exact h1.2

/-- C8: if the callable given to `submit` fails with `x`, the future returned
by that `submit` can only ever yield the error `x`; and when a worker runs the
job, the future becomes ready with `x`, the process is not terminated, the job
is neither queued nor held by a worker any more, the worker is back at the
head of its loop, and, unless its stop was requested, its next two actions
claim the job at the front of the queue. -/
theorem task_error_reaches_future {E V A : Type} (n : Nat) (p₀ q : ThreadPool E V)
    (pre post : List (PoolAction E V)) (f : A → Except E V) (a : A) (fut : Nat) (x : E)
    (hc : ThreadPool.ctor n = Except.ok p₀)
    (hs : (p₀.exec pre).submit f a = Except.ok (q, fut)) (hx : f a = Except.error x) :
    (∀ r, (q.exec post).get fut = some r → r = Except.error x) ∧
    ∀ i w, (q.exec post).workers[i]? = some w → w.pc = Pc.running (some fut) →
      ((q.exec post).step (PoolAction.worker i)).get fut = some (Except.error x) ∧
      ((q.exec post).step (PoolAction.worker i)).terminated = false ∧
      fut ∉ ((q.exec post).step (PoolAction.worker i)).tasks ∧
      fut ∉ ((q.exec post).step (PoolAction.worker i)).inflight ∧
      ((q.exec post).step (PoolAction.worker i)).workers[i]?
        = some { pc := Pc.loopHead, stop := w.stop } ∧
      (w.stop = false → ∀ job rest, (q.exec post).tasks = job :: rest →
        (((q.exec post).step (PoolAction.worker i)).exec
          [PoolAction.worker i, PoolAction.worker i]).workers[i]?
          = some { pc := Pc.running (some job), stop := false }) := by
  have hinv1 := ThreadPool.inv_exec (ThreadPool.inv_ctor n p₀ hc) pre
  have hinvq := ThreadPool.inv_submit hinv1 f a hs
  have hq : q.heap[fut]? = some { fn := fun _ => f a, result := none } := by
    simp only [ThreadPool.submit, Except.ok.injEq, Prod.mk.injEq] at hs
    obtain ⟨rfl, rfl⟩ := hs
    simp
  have safe : ∀ (acts : List (PoolAction E V)) r, (q.exec acts).get fut = some r →
      r = Except.error x := by
    intro acts r hr
    obtain ⟨t1, ht1, hfn⟩ := ThreadPool.exec_keeps_fn hinvq acts hq
    have := ThreadPool.get_eq_fn (ThreadPool.inv_exec hinvq acts) ht1 hr
    rw [this, hfn, hx]
  refine ⟨safe post, ?_⟩
  intro i w hw hpc
  have hinv := ThreadPool.inv_exec hinvq post
  have hinvs := ThreadPool.inv_worker_loop hinv i
  obtain ⟨hw1, hq1, hget⟩ := ThreadPool.wl_running hinv hw hpc
  rw [ThreadPool.step_worker hinv]
  have hready : ((q.exec post).worker_loop i).get fut = some (Except.error x) := by
    cases hg : ((q.exec post).worker_loop i).get fut with
    | none => exact absurd hg (hget fut rfl)
    | some r =>
      have h1 : (q.exec (post ++ [PoolAction.worker i])).get fut = some r := by
        rw [ThreadPool.exec_append, ThreadPool.exec_cons, ThreadPool.step_worker hinv]
        exact hg
      rw [safe _ r h1]
  have hran := ThreadPool.ready_ran hinvs (hget fut rfl)
  have hnd := List.nodup_range ((q.exec post).worker_loop i).heap.length
  rw [← hinvs.fifo] at hnd
  refine ⟨hready, hinvs.alive, ?_, ?_, hw1, ?_⟩
  · exact fun hmem => (List.nodup_append.mp hnd).2.2 (ThreadPool.ran_claimed hinvs hran) hmem
  · exact fun hmem => ThreadPool.inflight_not_ran hinvs hmem hran
  · intro hstop job rest hjob
    obtain ⟨hw2, hq2⟩ := ThreadPool.wl_loopHead hw1 rfl hstop
    have hinv2 := ThreadPool.inv_worker_loop hinvs i
    have hq3 : (((q.exec post).worker_loop i).worker_loop i).tasks = job :: rest := by
      rw [hq2, hq1]
      exact hjob
    obtain ⟨hw3, -⟩ := ThreadPool.wl_claim hw2 rfl hq3
    rw [ThreadPool.exec_cons, ThreadPool.step_worker hinvs, ThreadPool.exec_cons,
      ThreadPool.step_worker hinv2]
    exact hw3

/-- C8 at the 4-worker test pool with a task that fails with `"X"`. -/
theorem task_error_reaches_future_witness :
    ThreadPool.ctor 4 = Except.ok testPool ∧
    (testPool.exec []).submit (fun _ : Unit => (Except.error "X" : Except String Int)) ()
      = Except.ok ({ testPool with
          tasks := [0], heap := [{ fn := fun _ => Except.error "X", result := none }] }, 0) ∧
    (({ testPool with
          tasks := [0]
          heap := [{ fn := fun _ => Except.error "X", result := none }] }
        : ThreadPool String Int).exec [PoolAction.worker 2, PoolAction.worker 2,
          PoolAction.worker 2]).get 0 = some (Except.error "X") ∧
    ∀ r, (({ testPool with
          tasks := [0]
          heap := [{ fn := fun _ => Except.error "X", result := none }] }
        : ThreadPool String Int).exec [PoolAction.worker 2, PoolAction.worker 2,
          PoolAction.worker 2]).get 0 = some r → r = Except.error "X" :=
  ⟨rfl, rfl, rfl,
    (task_error_reaches_future 4 testPool _ [] [PoolAction.worker 2, PoolAction.worker 2,
      PoolAction.worker 2] (fun _ : Unit => (Except.error "X" : Except String Int)) () 0 "X"
      rfl rfl rfl).1⟩

theorem set_self_of_getElem? {α : Type} : ∀ (l : List α) (i : Nat) (w : α),
    l[i]? = some w → l.set i w = l
  | [], _, _, h => by simp at h
  | a :: l, 0, w, h => by
    simp at h
    simp [h]
  | a :: l, i + 1, w, h => by
    simp at h
    simp [set_self_of_getElem? l i w h]

/-- C9, counterexample: one worker that has reached its wait, then the destructor body sets
`stopping`.  The worker wakes with the queue empty, goes back to the loop
head, finds no stop requested on its token and is waiting again: it has not
exited. -/
theorem worker_spins_while_stopping :
    (ThreadPool.ctor 1 : Except PoolError (ThreadPool String Int)).map
      (fun p =>
        let q := p.exec [PoolAction.worker 0, PoolAction.dtor, PoolAction.worker 0,
          PoolAction.worker 0]
        (q.stopping, q.tasks, q.workers))
      = Except.ok (true, [], [{ pc := Pc.waiting, stop := false }]) := by
  rfl

/-- C9 (amended): with `stopping` set and the queue empty, a worker that wakes
from its wait goes back to the loop head.  If a stop was requested on its own
stop token it exits there; otherwise it returns to the wait, in exactly the
state it woke up in, so it keeps re-checking until its stop is requested. -/
theorem worker_exits_on_stop_token_only {E V : Type} (p : ThreadPool E V) (i : Nat)
    (w : Worker) (hw : p.workers[i]? = some w) (hpc : w.pc = Pc.waiting)
    (hstopping : p.stopping = true) (hq : p.tasks = []) :
    (p.worker_loop i).workers[i]? = some { pc := Pc.loopHead, stop := w.stop } ∧
    (w.stop = true →
      ((p.worker_loop i).worker_loop i).workers[i]? = some { pc := Pc.exited, stop := true }) ∧
    (w.stop = false → (p.worker_loop i).worker_loop i = p) := by
  have hlt : i < p.workers.length := (List.getElem?_eq_some_iff.mp hw).1
  have h1 : p.worker_loop i
      = { p with workers := p.workers.set i { pc := Pc.loopHead, stop := w.stop } } := by
    simp [ThreadPool.worker_loop, hw, hpc, hstopping, hq, ThreadPool.setPc]
  refine ⟨by rw [h1]; exact List.getElem?_set_self hlt, ?_, ?_⟩
  · intro hs
    rw [h1]
    simp [ThreadPool.worker_loop, List.getElem?_set_self hlt, hs, ThreadPool.setPc]
  · intro hs
    rw [h1]
    have hwe : w = { pc := Pc.waiting, stop := false } := by
      cases w
      simp only at hpc hs
      simp [hpc, hs]
    simp only [ThreadPool.worker_loop, List.getElem?_set_self hlt, hs, ThreadPool.setPc,
      List.set_set]
    simp only [Bool.false_eq_true, if_false]
    rw [← hwe, set_self_of_getElem? _ _ _ hw]

/-- C9 (amended) at the 4-worker test pool: worker 0 waits, the destructor body
runs, and two further actions of worker 0 bring the pool back to that state. -/
theorem worker_exits_on_stop_token_only_witness :
    (testPool.exec [PoolAction.worker 0, PoolAction.dtor]).workers[0]?
      = some { pc := Pc.waiting, stop := false } ∧
    (testPool.exec [PoolAction.worker 0, PoolAction.dtor]).stopping = true ∧
    (testPool.exec [PoolAction.worker 0, PoolAction.dtor]).tasks = [] ∧
    (((testPool.exec [PoolAction.worker 0, PoolAction.dtor]).worker_loop 0).worker_loop 0
      = testPool.exec [PoolAction.worker 0, PoolAction.dtor]) :=
  ⟨rfl, rfl, rfl,
    (worker_exits_on_stop_token_only (testPool.exec [PoolAction.worker 0, PoolAction.dtor]) 0
      { pc := Pc.waiting, stop := false } rfl rfl rfl rfl).2.2 rfl⟩

/-! ## The number of workers -/

theorem ThreadPool.worker_loop_length {E V : Type} (p : ThreadPool E V) (i : Nat) :
    (p.worker_loop i).workers.length = p.workers.length := by
  unfold ThreadPool.worker_loop
  cases hw : p.workers[i]? with
  | none => rfl
  | some w =>
    simp only
    cases hpc : w.pc with
    | loopHead =>
      simp only [ThreadPool.setPc, hw]
      split <;> simp
    | waiting =>
      simp only [ThreadPool.setPc, hw]
      split
      · split <;> simp
      · rfl
    | exited => rfl
    | running job =>
      cases job with
      | none => simp [ThreadPool.setPc, hw]
      | some task =>
        have hwk : (p.invoke i task).workers = p.workers := by
          unfold ThreadPool.invoke
          split
          · split <;> rfl
          · rfl
        simp [ThreadPool.setPc, hwk, hw]

theorem ThreadPool.request_stop_length {E V : Type} (p : ThreadPool E V) (i : Nat) :
    (p.request_stop i).workers.length = p.workers.length := by
  unfold ThreadPool.request_stop
  split <;> simp

theorem ThreadPool.step_length {E V : Type} (p : ThreadPool E V) (a : PoolAction E V) :
    (p.step a).workers.length = p.workers.length := by
  unfold ThreadPool.step
  split
  · rfl
  · cases a with
    | submit f => rfl
    | dtor => rfl
    | request_stop i => exact ThreadPool.request_stop_length p i
    | worker i => exact ThreadPool.worker_loop_length p i

theorem ThreadPool.exec_length {E V : Type} (p : ThreadPool E V) (acts : List (PoolAction E V)) :
    (p.exec acts).workers.length = p.workers.length := by
  induction acts generalizing p with
  | nil => rfl
  | cons a acts ih => rw [ThreadPool.exec_cons, ih, ThreadPool.step_length]

/-- C11: a pool constructed with worker count `n` has exactly `n` workers, in
the constructed state and in every state reached from it by any schedule of
submits, worker actions (claims and task executions), destructor body and stop
requests; and each single such operation leaves the number of workers as
it is. -/
theorem worker_count_fixed {E V : Type} (n : Nat) (p₀ : ThreadPool E V)
    (acts : List (PoolAction E V)) (hc : ThreadPool.ctor n = Except.ok p₀) :
    p₀.workers.length = n ∧ (p₀.exec acts).workers.length = n ∧
    (∀ {A : Type} (f : A → Except E V) (a : A) q fut,
      (p₀.exec acts).submit f a = Except.ok (q, fut) → q.workers.length = n) ∧
    (∀ i, ((p₀.exec acts).worker_loop i).workers.length = n) ∧
    (p₀.exec acts).dtor.workers.length = n ∧
    (∀ i, ((p₀.exec acts).request_stop i).workers.length = n) := by
  have h0 : p₀.workers.length = n := by
    simp only [ThreadPool.ctor, Except.ok.injEq] at hc
    subst hc
    simp
  have h1 : (p₀.exec acts).workers.length = n := by
    rw [ThreadPool.exec_length, h0]
  refine ⟨h0, h1, ?_, ?_, h1, ?_⟩
  · intro A f a q fut hs
    simp only [ThreadPool.submit, Except.ok.injEq, Prod.mk.injEq] at hs
    obtain ⟨rfl, -⟩ := hs
    exact h1
  · intro i
    rw [ThreadPool.worker_loop_length, h1]
  · intro i
    rw [ThreadPool.request_stop_length, h1]

/-- C11 on `shutdownSchedule`: the 4-worker test pool still has 4 workers after
two submits, a claim, a task execution and the shutdown. -/
theorem worker_count_fixed_witness :
    ThreadPool.ctor 4 = Except.ok testPool ∧
    (testPool.exec shutdownSchedule).workers.length = 4 :=
  ⟨rfl, (worker_count_fixed 4 testPool shutdownSchedule rfl).2.1⟩

/-! ## Factorials -/

/-- C20: for every `N` both `factorial<N>()` of `templates_demo.cpp` and
`factorial(N)` of `template_metaprogramming_demo.cpp` are `N!` modulo 2^64;
they are 1 at 0 and at 1, and `factorial<5>() == 120`. -/
theorem factorial_eq_factorial_mod :
    (∀ N, TemplatesDemo.factorial N = N.factorial % 2 ^ 64 ∧
      TemplateMetaprogramming.factorial N = N.factorial % 2 ^ 64) ∧
    TemplatesDemo.factorial 0 = 1 ∧ TemplatesDemo.factorial 1 = 1 ∧
    TemplateMetaprogramming.factorial 0 = 1 ∧ TemplateMetaprogramming.factorial 1 = 1 ∧
    TemplatesDemo.factorial 5 = 120 ∧ TemplateMetaprogramming.factorial 5 = 120 := by
  refine ⟨?_, rfl, rfl, rfl, rfl, by decide, by decide⟩
  intro N
  induction N with
  | zero => exact ⟨rfl, rfl⟩
  | succ n ih =>
    have key : ∀ x, x = n.factorial % 2 ^ 64 →
        (if n + 1 ≤ 1 then 1 else ((n + 1) * x) % 2 ^ 64) = (n + 1).factorial % 2 ^ 64 := by
      intro x hx
      split
      · rename_i h
        have hn : n = 0 := by omega
        subst hn
        rfl
      · rw [hx, Nat.factorial_succ, Nat.mul_mod_mod]
    constructor
    · rw [TemplatesDemo.factorial]
      exact key _ ih.1
    · rw [TemplateMetaprogramming.factorial]
      exact key _ ih.2

/-! ## Branchy and branchless sums -/

/-- C16, failing input: on the one-element vector `{-1}` the branchy sum is 1
(it subtracts the non-positive entry) and the branchless sum is -1 (it adds
`-1 * abs(-1)`). -/
theorem sumBranchless_differs :
    sumWithBranches [-1] = 1 ∧ sumBranchless [-1] = -1 ∧
    sumBranchless [-1] ≠ sumWithBranches [-1] := by
  decide

/-! ## Quick sort -/

/-- C17, failing input: on the vector of `demonstrateStrategy` the one
partition pass of `QuickSort::sort` leaves `3 1 4 1 2 5 9 6`, a permutation of
the input that is not sorted. -/
theorem quickSort_leaves_unsorted :
    QuickSort.sort [3, 1, 4, 1, 5, 9, 2, 6] = [3, 1, 4, 1, 2, 5, 9, 6] ∧
    ¬ List.Sorted (· ≤ ·) (QuickSort.sort [3, 1, 4, 1, 5, 9, 2, 6]) ∧
    List.Perm (QuickSort.sort [3, 1, 4, 1, 5, 9, 2, 6]) [3, 1, 4, 1, 5, 9, 2, 6] := by
  decide

/-! ## The two loops of `demonstrateLoopOptimization` -/

/-- Body of the loop of `processDataOptimized` on the vector alone. -/
theorem optimized_fold_fst (l : List Nat) : ∀ (s : List Int × Int),
    (l.foldl
      (fun (s : List Int × Int) i =>
        (s.1.set i (wrapInt32 (wrapInt32 (s.1.getD i 0 * 2) + s.1.getD (i + 1) 0)),
          s.1.getD (i + 1) 0)) s).1
      = l.foldl
        (fun d i => d.set i (wrapInt32 (wrapInt32 (d.getD i 0 * 2) + d.getD (i + 1) 0))) s.1 := by
  induction l with
  | nil => intro s; rfl
  | cons i l ih =>
    intro s
    simp only [List.foldl_cons]
    rw [ih]

theorem shifted_fold_length (l : List Nat) : ∀ (d : List Int),
    (l.foldl
      (fun d i => d.set i (wrapInt32 (wrapInt32 (d.getD i 0 * 2) + d.getD (i + 1) 0))) d).length
      = d.length := by
  induction l with
  | nil => intro d; rfl
  | cons i l ih =>
    intro d
    simp only [List.foldl_cons]
    rw [ih, List.length_set]

/-- Below the last index the wrap-around index `(i + 1) % data.size()` of
`processDataInefficient` is `i + 1`. -/
theorem inefficient_fold_eq (m : Nat) (l : List Nat) (hl : ∀ i ∈ l, i < m) :
    ∀ (d : List Int), d.length = m + 1 →
    l.foldl
      (fun d i =>
        d.set i (wrapInt32 (wrapInt32 (d.getD i 0 * 2) + d.getD ((i + 1) % d.length) 0))) d
      = l.foldl
        (fun d i => d.set i (wrapInt32 (wrapInt32 (d.getD i 0 * 2) + d.getD (i + 1) 0))) d := by
  induction l with
  | nil => intro d _; rfl
  | cons i l ih =>
    intro d hd
    have hi : i < m := hl i (List.mem_cons_self _ _)
    have hmod : (i + 1) % d.length = i + 1 := by
      rw [hd]
      exact Nat.mod_eq_of_lt (by omega)
    simp only [List.foldl_cons, hmod]
    exact ih (fun j hj => hl j (List.mem_cons_of_mem _ hj)) _ (by rw [List.length_set]; exact hd)

/-- C15: for every vector, the empty and the one-element vector included,
`processDataOptimized` and `processDataInefficient` leave the same contents
(all `int` operations wrapping to 32 bits). -/
theorem processData_optimized_eq_inefficient (data : List Int) :
    processDataOptimized data = processDataInefficient data := by
  cases hn : data.length with
  | zero =>
    have : data = [] := List.length_eq_zero.mp hn
    subst this
    rfl
  | succ m =>
    have hne : data.isEmpty = false := by
      cases data with
      | nil => simp at hn
      | cons a t => rfl
    unfold processDataOptimized processDataInefficient
    simp only [hne, hn, Bool.false_eq_true, if_false, Nat.add_sub_cancel]
    rw [optimized_fold_fst, List.range_succ, List.foldl_append,
      inefficient_fold_eq m (List.range m) (fun i hi => List.mem_range.mp hi) data hn]
    simp only [List.foldl_cons, List.foldl_nil, shifted_fold_length, hn, Nat.add_sub_cancel,
      Nat.mod_self]

/-! ## Bubble sort -/

namespace BubbleSort

theorem swap_perm : ∀ (d : List Int) (j : Nat), j + 1 < d.length →
    List.Perm ((d.set j (d.getD (j + 1) 0)).set (j + 1) (d.getD j 0)) d
  | [], _, h => by simp at h
  | [_], _, h => by simp at h
  | a :: b :: t, 0, _ => by
    simp only [List.getD_cons_succ, List.getD_cons_zero, List.set_cons_zero, List.set_cons_succ]
    exact List.Perm.swap a b t
  | a :: b :: t, j + 1, h => by
    simp only [List.getD_cons_succ, List.set_cons_succ]
    exact List.Perm.cons a (swap_perm (b :: t) j (by simpa using h))

/-- Effect of one comparison on the two positions it may exchange, and on
all others. -/
theorem compareSwap_spec (d : List Int) (j : Nat) (hj : j + 1 < d.length) :
    (compareSwap d j).length = d.length ∧ List.Perm (compareSwap d j) d ∧
    (compareSwap d j).getD j 0 ≤ (compareSwap d j).getD (j + 1) 0 ∧
    d.getD j 0 ≤ (compareSwap d j).getD (j + 1) 0 ∧
    ((compareSwap d j).getD j 0 = d.getD j 0 ∨ (compareSwap d j).getD j 0 = d.getD (j + 1) 0) ∧
    ((compareSwap d j).getD (j + 1) 0 = d.getD j 0 ∨
      (compareSwap d j).getD (j + 1) 0 = d.getD (j + 1) 0) ∧
    ∀ a, a ≠ j → a ≠ j + 1 → (compareSwap d j).getD a 0 = d.getD a 0 := by
  unfold compareSwap
  split
  · rename_i hgt
    have h1 : j + 1 < (d.set j (d.getD (j + 1) 0)).length := by simpa using hj
    have hj0 : j < d.length := by omega
    have e1 : ((d.set j (d.getD (j + 1) 0)).set (j + 1) (d.getD j 0)).getD (j + 1) 0
        = d.getD j 0 := getD_set_self h1 _
    have e0 : ((d.set j (d.getD (j + 1) 0)).set (j + 1) (d.getD j 0)).getD j 0
        = d.getD (j + 1) 0 := by
      rw [getD_set_ne (by omega), getD_set_self hj0]
    refine ⟨by simp, swap_perm d j hj, ?_, ?_, ?_, ?_, ?_⟩
    · rw [e0, e1]
      exact le_of_lt hgt
    · rw [e1]
    · exact Or.inr e0
    · exact Or.inl e1
    · intro a ha ha1
      rw [getD_set_ne (Ne.symm ha1), getD_set_ne (Ne.symm ha)]
  · rename_i hgt
    exact ⟨rfl, List.Perm.refl _, not_lt.mp hgt, not_lt.mp hgt, Or.inl rfl, Or.inr rfl,
      fun _ _ _ => rfl⟩

/-- Invariant of the inner loop after `k` comparisons, for a loop bound `m`:
the largest of the first `k + 1` entries sits at position `k`, the entries
above `m` are untouched and the first `m + 1` entries are values that were
among the first `m + 1`. -/
theorem inner_loop (d0 : List Int) (m : Nat) (hm : m < d0.length) :
    ∀ k, k ≤ m →
      ((List.range k).foldl compareSwap d0).length = d0.length ∧
      List.Perm ((List.range k).foldl compareSwap d0) d0 ∧
      (∀ a, m < a → ((List.range k).foldl compareSwap d0).getD a 0 = d0.getD a 0) ∧
      (∀ a, a < k → ((List.range k).foldl compareSwap d0).getD a 0
        ≤ ((List.range k).foldl compareSwap d0).getD k 0) ∧
      (∀ a, a ≤ m → ∃ b, b ≤ m ∧
        ((List.range k).foldl compareSwap d0).getD a 0 = d0.getD b 0) := by
  intro k
  induction k with
  | zero =>
    intro _
    exact ⟨rfl, List.Perm.refl _, fun _ _ => rfl, fun a ha => absurd ha (Nat.not_lt_zero a),
      fun a ha => ⟨a, ha, rfl⟩⟩
  | succ k ih =>
    intro hk
    obtain ⟨hlen, hperm, hup, hmax, hpre⟩ := ih (by omega)
    rw [List.range_succ, List.foldl_append]
    simp only [List.foldl_cons, List.foldl_nil]
    generalize (List.range k).foldl compareSwap d0 = d at hlen hperm hup hmax hpre
    obtain ⟨slen, sperm, sord, sge, s0, s1, sother⟩ := compareSwap_spec d k (by omega)
    refine ⟨slen.trans hlen, sperm.trans hperm, ?_, ?_, ?_⟩
    · intro a ha
      rw [sother a (by omega) (by omega)]
      exact hup a ha
    · intro a ha
      by_cases hak : a = k
      · subst hak
        exact sord
      · rw [sother a hak (by omega)]
        exact le_trans (hmax a (by omega)) sge
    · intro a ha
      by_cases hak : a = k
      · subst hak
        rcases s0 with h | h
        · rw [h]
          exact hpre a (by omega)
        · rw [h]
          exact hpre (a + 1) (by omega)
      · by_cases hak1 : a = k + 1
        · subst hak1
          rcases s1 with h | h
          · rw [h]
            exact hpre k (by omega)
          · rw [h]
            exact hpre (k + 1) (by omega)
        · rw [sother a hak hak1]
          exact hpre a ha

/-- Invariant of the outer loop after `i` passes: the last `i` entries are in
order and no entry before them exceeds any of them. -/
theorem outer_loop (data : List Int) :
    ∀ i, i + 1 ≤ data.length →
      ((List.range i).foldl pass data).length = data.length ∧
      List.Perm ((List.range i).foldl pass data) data ∧
      (∀ a b, data.length - i ≤ a → a < b → b < data.length →
        ((List.range i).foldl pass data).getD a 0 ≤ ((List.range i).foldl pass data).getD b 0) ∧
      (∀ a b, a < data.length - i → data.length - i ≤ b → b < data.length →
        ((List.range i).foldl pass data).getD a 0
          ≤ ((List.range i).foldl pass data).getD b 0) := by
  intro i
  induction i with
  | zero =>
    intro _
    exact ⟨rfl, List.Perm.refl _, fun a b h1 h2 h3 => by omega, fun a b h1 h2 h3 => by omega⟩
  | succ i ih =>
    intro hi
    obtain ⟨hlen, hperm, htail, hpt⟩ := ih (by omega)
    rw [List.range_succ, List.foldl_append]
    simp only [List.foldl_cons, List.foldl_nil]
    generalize (List.range i).foldl pass data = d at hlen hperm htail hpt
    unfold pass
    obtain ⟨ilen, iperm, iup, imax, ipre⟩ :=
      inner_loop d (d.length - i - 1) (by omega) (d.length - i - 1) (le_refl _)
    generalize (List.range (d.length - i - 1)).foldl compareSwap d = d1
      at ilen iperm iup imax ipre
    rw [hlen] at iup imax ipre
    have hm : data.length - (i + 1) = data.length - i - 1 := by omega
    refine ⟨ilen.trans hlen, iperm.trans hperm, ?_, ?_⟩
    · intro a b h1 h2 h3
      rw [iup b (by omega)]
      by_cases ha : a = data.length - i - 1
      · obtain ⟨b0, hb0, hb0e⟩ := ipre a (by omega)
        rw [hb0e]
        exact hpt b0 b (by omega) (by omega) h3
      · rw [iup a (by omega)]
        exact htail a b (by omega) h2 h3
    · intro a b h1 h2 h3
      by_cases hb : b = data.length - i - 1
      · subst hb
        exact imax a (by omega)
      · rw [iup b (by omega)]
        obtain ⟨b0, hb0, hb0e⟩ := ipre a (by omega)
        rw [hb0e]
        exact hpt b0 b (by omega) (by omega) h3

end BubbleSort

/-- C18: on every non-empty vector `BubbleSort::sort` terminates with a vector
that is sorted in non-decreasing order and is a permutation of the input. -/
theorem bubbleSort_sorts (data : List Int) (h : data ≠ []) :
    ∃ out, BubbleSort.sort data = some out ∧ List.Sorted (· ≤ ·) out ∧
      List.Perm out data := by
  have hlen : data.length ≠ 0 := fun hc => h (List.length_eq_zero.mp hc)
  refine ⟨(List.range (data.length - 1)).foldl BubbleSort.pass data, ?_, ?_, ?_⟩
  · simp [BubbleSort.sort, hlen]
  · obtain ⟨olen, -, otail, opt⟩ := BubbleSort.outer_loop data (data.length - 1) (by omega)
    generalize (List.range (data.length - 1)).foldl BubbleSort.pass data = out
      at olen otail opt
    unfold List.Sorted
    rw [List.pairwise_iff_getElem]
    intro a b ha hb hab
    have ea : out[a] = out.getD a 0 := by
      rw [List.getD_eq_getElem?_getD, List.getElem?_eq_getElem ha]
      rfl
    have eb : out[b] = out.getD b 0 := by
      rw [List.getD_eq_getElem?_getD, List.getElem?_eq_getElem hb]
      rfl
    rw [ea, eb]
    by_cases h0 : a = 0
    · exact opt a b (by omega) (by omega) (by omega)
    · exact otail a b (by omega) hab (by omega)
  · exact (BubbleSort.outer_loop data (data.length - 1) (by omega)).2.1

/-- C18 on the vector of `demonstrateStrategy`. -/
theorem bubbleSort_sorts_witness :
    ([3, 1, 4, 1, 5, 9, 2, 6] : List Int) ≠ [] ∧
    BubbleSort.sort [3, 1, 4, 1, 5, 9, 2, 6] = some [1, 1, 2, 3, 4, 5, 6, 9] ∧
    ∃ out, BubbleSort.sort [3, 1, 4, 1, 5, 9, 2, 6] = some out ∧ List.Sorted (· ≤ ·) out ∧
      List.Perm out [3, 1, 4, 1, 5, 9, 2, 6] :=
  ⟨by decide, by decide, bubbleSort_sorts [3, 1, 4, 1, 5, 9, 2, 6] (by decide)⟩

/-! ## `MemoryPool` -/

namespace MemoryPool

theorem link_succ (base bs i : Nat) : link base bs (i + 1) = base + i * bs := by
  simp [link]

/-- State of the constructor loop after `i` blocks: the free list starts at
the last block threaded, and every block threaded holds its link. -/
theorem ctor_loop (bs n base : Nat) (mem : Nat → Nat) (hbs : 0 < bs)
    (hfit : base + bs * n < 2 ^ 64) :
    ∀ i, i ≤ n →
      ∃ nx, (List.range i).foldl
          (fun (p : MemoryPool) i =>
            { p with
                next := Function.update p.next (p.pool + (i * p.blockSize) % 2 ^ 64) p.freeList
                freeList := p.pool + (i * p.blockSize) % 2 ^ 64 })
          { blockSize := bs, blockCount := n, pool := base, freeList := 0, next := mem }
        = { blockSize := bs, blockCount := n, pool := base, freeList := link base bs i,
            next := nx } ∧
        ∀ j, j < i → nx (base + j * bs) = link base bs j := by
  intro i
  induction i with
  | zero =>
    intro _
    exact ⟨mem, rfl, fun j hj => absurd hj (Nat.not_lt_zero j)⟩
  | succ i ih =>
    intro hi
    obtain ⟨nx, hst, hnx⟩ := ih (by omega)
    have hle : i * bs ≤ n * bs := Nat.mul_le_mul_right bs (by omega)
    have hmod : (i * bs) % 2 ^ 64 = i * bs := Nat.mod_eq_of_lt (by nlinarith)
    rw [List.range_succ, List.foldl_append, hst]
    simp only [List.foldl_cons, List.foldl_nil, hmod, link_succ]
    refine ⟨_, rfl, ?_⟩
    intro j hj
    by_cases hji : j = i
    · subst hji
      simp
    · have hlt : j * bs < i * bs := Nat.mul_lt_mul_of_pos_right (by omega) hbs
      rw [Function.update_noteq (by omega)]
      exact hnx j (by omega)

theorem ctor_spec (bs n base : Nat) (mem : Nat → Nat) (hbs : 0 < bs)
    (hfit : base + bs * n < 2 ^ 64) :
    ∃ nx, ctor bs n base mem
        = { blockSize := bs, blockCount := n, pool := base, freeList := link base bs n,
            next := nx } ∧
      ∀ j, j < n → nx (base + j * bs) = link base bs j :=
  ctor_loop bs n base mem hbs hfit n (le_refl n)

/-- From a free list threaded through blocks `i - 1`, ..., `0`, the first `k`
calls of `allocate` return the blocks `i - 1`, ..., `i - k`. -/
theorem allocateN_spec (bs base : Nat) (hbase : 0 < base) :
    ∀ (k i : Nat) (p : MemoryPool), k ≤ i → p.freeList = link base bs i →
      (∀ j, j < i → p.next (base + j * bs) = link base bs j) →
      allocateN k p = Except.ok ({ p with freeList := link base bs (i - k) },
        (List.range k).map (fun j => base + (i - 1 - j) * bs))
  | 0, i, p, _, hf, _ => by
    simp only [allocateN, List.range_zero, List.map_nil, Nat.sub_zero, ← hf]
  | k + 1, i, p, hk, hf, hnx => by
    obtain ⟨i1, rfl⟩ : ∃ i1, i = i1 + 1 := ⟨i - 1, by omega⟩
    have hne : p.freeList ≠ 0 := by
      rw [hf, link_succ]
      omega
    have hnext : p.next p.freeList = link base bs i1 := by
      rw [hf, link_succ]
      exact hnx i1 (by omega)
    have ih := allocateN_spec bs base hbase k i1 { p with freeList := link base bs i1 }
      (by omega) rfl (fun j hj => hnx j (by omega))
    rw [allocateN]
    simp only [allocate, hne, if_false, hnext, ih]
    have hlist : (List.range (k + 1)).map (fun j => base + (i1 + 1 - 1 - j) * bs)
        = p.freeList :: (List.range k).map (fun j => base + (i1 - 1 - j) * bs) := by
      rw [List.range_succ_eq_map, List.map_cons, List.map_map, hf, link_succ]
      simp only [Nat.add_sub_cancel, Nat.sub_zero, List.cons.injEq, true_and]
      apply List.map_congr_left
      intro j _
      simp only [Function.comp, Nat.succ_eq_add_one]
      congr 2
      omega
    rw [hlist]
    simp only [Nat.add_sub_add_right]

end MemoryPool

/-- C12, counterexample: `MemoryPool(0, 2)`.  Both blocks are at the address of
the pool, so the second pass of the constructor loop links the block to
itself; three calls of `allocate` succeed and return the same block three
times. -/
theorem allocate_never_throws_for_empty_blocks :
    ((MemoryPool.ctor 0 2 4096 (fun _ => 0)).allocateN 3).map Prod.snd
      = Except.ok [4096, 4096, 4096] := by
  decide

/-- C12 (amended): `allocate` throws `bad_alloc` exactly when the free list is
empty; and for a pool of `n` blocks of at least `sizeof(Block)` bytes that
fits in the address space, the first `n` calls of `allocate` on the fresh pool
succeed and return the blocks at offsets `(n - 1) * blockSize`, ..., `0`,
which are pairwise distinct, inside the pool and at multiples of `blockSize`,
and call `n + 1` throws `bad_alloc`. -/
theorem allocate_exhausts_after_blockCount (bs n base : Nat) (mem : Nat → Nat)
    (hbs : sizeofBlock ≤ bs) (hbase : 0 < base) (hfit : base + bs * n < 2 ^ 64) :
    (∀ p : MemoryPool, p.allocate = Except.error AllocError.bad_alloc ↔ p.freeList = 0) ∧
    (∃ q, (MemoryPool.ctor bs n base mem).allocateN n
        = Except.ok (q, (List.range n).map (fun j => base + (n - 1 - j) * bs)) ∧
      q.allocate = Except.error AllocError.bad_alloc) ∧
    (MemoryPool.ctor bs n base mem).allocateN (n + 1)
      = Except.error AllocError.bad_alloc ∧
    ((List.range n).map (fun j => base + (n - 1 - j) * bs)).Nodup ∧
    ∀ b ∈ (List.range n).map (fun j => base + (n - 1 - j) * bs),
      base ≤ b ∧ b < base + bs * n ∧ (b - base) % bs = 0 := by
  have hpos : 0 < bs := by
    unfold sizeofBlock at hbs
    omega
  constructor
  · intro p
    unfold MemoryPool.allocate
    split <;> simp_all
  · obtain ⟨nx, hctor, hnx⟩ := MemoryPool.ctor_spec bs n base mem hpos hfit
    have hall := MemoryPool.allocateN_spec bs base hbase n n (MemoryPool.ctor bs n base mem)
      (le_refl n) (by rw [hctor]) (by rw [hctor]; exact hnx)
    have hq : ({ MemoryPool.ctor bs n base mem with freeList := MemoryPool.link base bs (n - n) }
        : MemoryPool).allocate = Except.error AllocError.bad_alloc := by
      simp [MemoryPool.allocate, MemoryPool.link]
    refine ⟨⟨_, hall, hq⟩, ?_, ?_, ?_⟩
    · have hstep : ∀ (k : Nat) (p r : MemoryPool) (l : List Nat),
          MemoryPool.allocateN k p = Except.ok (r, l) →
          r.allocate = Except.error AllocError.bad_alloc →
          MemoryPool.allocateN (k + 1) p = Except.error AllocError.bad_alloc := by
        intro k
        induction k with
        | zero =>
          intro p r l h hr
          simp only [MemoryPool.allocateN, Except.ok.injEq, Prod.mk.injEq] at h
          rw [MemoryPool.allocateN, h.1, hr]
        | succ k ih =>
          intro p r l h hr
          rw [MemoryPool.allocateN] at h ⊢
          cases hp : p.allocate with
          | error e => simp [hp] at h
          | ok v =>
            obtain ⟨q1, b⟩ := v
            rw [hp] at h
            simp only at h ⊢
            cases hk : MemoryPool.allocateN k q1 with
            | error e => simp [hk] at h
            | ok v1 =>
              obtain ⟨r1, l1⟩ := v1
              rw [hk] at h
              simp only [Except.ok.injEq, Prod.mk.injEq] at h
              rw [ih q1 r1 l1 hk (by rw [h.1]; exact hr)]
      exact hstep n _ _ _ hall hq
    · rw [List.nodup_map_iff_inj_on (List.nodup_range n)]
      intro x hx y hy hxy
      have hx1 := List.mem_range.mp hx
      have hy1 := List.mem_range.mp hy
      have h1 : (n - 1 - x) * bs = (n - 1 - y) * bs := by omega
      have h2 : n - 1 - x = n - 1 - y := Nat.eq_of_mul_eq_mul_right hpos h1
      omega
    · intro b hb
      obtain ⟨j, hj, rfl⟩ := List.mem_map.mp hb
      have hj1 := List.mem_range.mp hj
      have hle : (n - 1 - j) * bs + bs ≤ n * bs := by
        have : (n - 1 - j + 1) * bs ≤ n * bs := Nat.mul_le_mul_right bs (by omega)
        linarith [Nat.add_mul (n - 1 - j) 1 bs]
      refine ⟨by omega, by nlinarith, ?_⟩
      rw [Nat.add_sub_cancel_left, Nat.mul_mod_left]

/-- C12 (amended) on `MemoryPool pool(64, 10)` placed at address 4096. -/
theorem allocate_exhausts_after_blockCount_witness :
    sizeofBlock ≤ 64 ∧ 0 < 4096 ∧ 4096 + 64 * 10 < 2 ^ 64 ∧
    (demoPool.allocateN 10).map Prod.snd
      = Except.ok [4672, 4608, 4544, 4480, 4416, 4352, 4288, 4224, 4160, 4096] ∧
    demoPool.allocateN 11 = Except.error AllocError.bad_alloc :=
  ⟨by decide, by decide, by decide, by decide,
    (allocate_exhausts_after_blockCount 64 10 4096 (fun _ => 0) (by decide) (by decide)
      (by decide)).2.2.1⟩

/-- Writing the `next` field of a block that is not on a chain leaves the
chain as it is. -/
theorem MemoryPool.chainFrom_update (next : Nat → Nat) (ptr v : Nat) :
    ∀ (fuel a : Nat), ptr ∉ MemoryPool.chainFrom next fuel a →
      MemoryPool.chainFrom (Function.update next ptr v) fuel a
        = MemoryPool.chainFrom next fuel a
  | 0, _, _ => rfl
  | fuel + 1, a, h => by
    unfold MemoryPool.chainFrom at h ⊢
    by_cases ha : a = 0
    · simp [ha]
    · simp only [ha, if_false, List.mem_cons, not_or] at h ⊢
      rw [Function.update_noteq (Ne.symm h.1),
        MemoryPool.chainFrom_update next ptr v fuel (next a) h.2]

/-- C13, counterexample: `MemoryPool(0, 1)`.  `allocate` returns the block at
the address of the pool; `deallocate` of that block returns early, because the
range `[pool, pool + 0)` is empty, and leaves the free list empty; the
following `allocate` throws `bad_alloc` instead of returning the block. -/
theorem deallocate_loses_block_of_empty_range :
    (MemoryPool.ctor 0 1 4096 (fun _ => 0)).allocate.map
      (fun r => (r.2, (r.1.deallocate r.2).freeList,
        (r.1.deallocate r.2).allocate.map Prod.snd))
      = Except.ok (4096, 0, Except.error AllocError.bad_alloc) := by
  decide

/-- Two distinct block starts are at least `blockSize` apart, and a block
start leaves room for `blockSize` bytes inside the pool. -/
theorem MemoryPool.block_room (p : MemoryPool) {a b : Nat} (ha : p.IsBlock a)
    (hb : p.IsBlock b) :
    a + p.blockSize ≤ p.pool + p.blockSize * p.blockCount ∧
    (a < b → a + p.blockSize ≤ b) := by
  obtain ⟨ha1, ha2, ha3⟩ := ha
  obtain ⟨hb1, -, hb3⟩ := hb
  obtain ⟨k, hk⟩ := Nat.dvd_of_mod_eq_zero ha3
  obtain ⟨l, hl⟩ := Nat.dvd_of_mod_eq_zero hb3
  have hak : a = p.pool + p.blockSize * k := by omega
  have hbl : b = p.pool + p.blockSize * l := by omega
  constructor
  · have hlt : p.blockSize * k < p.blockSize * p.blockCount := by omega
    have hkc : k < p.blockCount := Nat.lt_of_mul_lt_mul_left hlt
    have : p.blockSize * (k + 1) ≤ p.blockSize * p.blockCount :=
      Nat.mul_le_mul_left _ hkc
    rw [Nat.mul_add, Nat.mul_one] at this
    omega
  · intro hab
    have hlt : p.blockSize * k < p.blockSize * l := by omega
    have hkl : k < l := Nat.lt_of_mul_lt_mul_left hlt
    have : p.blockSize * (k + 1) ≤ p.blockSize * l := Nat.mul_le_mul_left _ hkl
    rw [Nat.mul_add, Nat.mul_one] at this
    omega

/-- C13 (amended): for a pool whose `blockSize` is at least `sizeof(Block)` and
that fits in the address space, in every state whose free list consists of
block starts, and for every non-null block start `ptr` of the pool that is
not on the free list, `deallocate(ptr)` followed by `allocate()` returns
`ptr`, and afterwards the free list is the one from before the `deallocate`:
same head, same chain of blocks, and the `next` field of every other block is
as before.  The store into `ptr` stays inside the pool and `sizeof(Block)`
bytes clear of every other block start. -/
theorem deallocate_then_allocate_returns_block (p : MemoryPool) (ptr fuel : Nat)
    (hbs : sizeofBlock ≤ p.blockSize)
    (hfit : p.pool + p.blockSize * p.blockCount < 2 ^ 64)
    (h0 : ptr ≠ 0) (hblock : p.IsBlock ptr)
    (hlist : ∀ a ∈ p.freeChain fuel, p.IsBlock a)
    (hfree : ptr ∉ p.freeChain fuel) :
    (∃ q, (p.deallocate ptr).allocate = Except.ok (q, ptr) ∧
      q.freeList = p.freeList ∧ q.freeChain fuel = p.freeChain fuel ∧
      (∀ a, p.IsBlock a → a ≠ ptr → q.next a = p.next a) ∧
      q.pool = p.pool ∧ q.blockSize = p.blockSize ∧ q.blockCount = p.blockCount) ∧
    ptr + sizeofBlock ≤ p.pool + p.blockSize * p.blockCount ∧
    (∀ a, p.IsBlock a → a ≠ ptr → a + sizeofBlock ≤ ptr ∨ ptr + sizeofBlock ≤ a) ∧
    (∀ a ∈ p.freeChain fuel, a + sizeofBlock ≤ ptr ∨ ptr + sizeofBlock ≤ a) := by
  have hmod : (p.blockSize * p.blockCount) % 2 ^ 64 = p.blockSize * p.blockCount :=
    Nat.mod_eq_of_lt (by omega)
  have hrange : ¬ (ptr < p.pool ∨ ptr ≥ p.pool + p.blockSize * p.blockCount) := by
    have h1 := hblock.1
    have h2 := hblock.2.1
    omega
  have hd : p.deallocate ptr
      = { p with next := Function.update p.next ptr p.freeList, freeList := ptr } := by
    simp only [MemoryPool.deallocate, h0, if_false, hmod, hrange]
  have hsep : ∀ a, p.IsBlock a → a ≠ ptr →
      a + sizeofBlock ≤ ptr ∨ ptr + sizeofBlock ≤ a := by
    intro a ha hne
    have h1 := (MemoryPool.block_room p ha hblock).2
    have h2 := (MemoryPool.block_room p hblock ha).2
    rcases Nat.lt_or_gt_of_ne hne with h | h
    · exact Or.inl (le_trans (Nat.add_le_add_left hbs a) (h1 h))
    · exact Or.inr (le_trans (Nat.add_le_add_left hbs ptr) (h2 h))
  refine ⟨⟨{ p with next := Function.update p.next ptr p.freeList,
                    freeList := Function.update p.next ptr p.freeList ptr }, ?_, ?_, ?_, ?_,
    rfl, rfl, rfl⟩, ?_, hsep, ?_⟩
  · rw [hd]
    simp only [MemoryPool.allocate, h0, if_false]
  · simp
  · simp only [MemoryPool.freeChain, Function.update_same]
    exact MemoryPool.chainFrom_update p.next ptr p.freeList fuel p.freeList hfree
  · intro a _ ha
    exact Function.update_noteq ha _ _
  · exact le_trans (Nat.add_le_add_left hbs ptr) (MemoryPool.block_room p hblock hblock).1
  · intro a ha
    exact hsep a (hlist a ha) (fun h => hfree (h ▸ ha))

/-- C13 (amended) on the pool of `demonstrateMemoryPool` after its first
`allocate()`: the block at 4672 is given back and handed out again. -/
theorem deallocate_then_allocate_returns_block_witness :
    sizeofBlock ≤ demoPoolAllocated.blockSize ∧
    demoPoolAllocated.pool + demoPoolAllocated.blockSize * demoPoolAllocated.blockCount
      < 2 ^ 64 ∧
    (4672 : Nat) ≠ 0 ∧ demoPoolAllocated.IsBlock 4672 ∧
    (∀ a ∈ demoPoolAllocated.freeChain 20, demoPoolAllocated.IsBlock a) ∧
    4672 ∉ demoPoolAllocated.freeChain 20 ∧
    demoPoolAllocated.freeChain 20
      = [4608, 4544, 4480, 4416, 4352, 4288, 4224, 4160, 4096] ∧
    ∃ q, (demoPoolAllocated.deallocate 4672).allocate = Except.ok (q, 4672) ∧
      q.freeList = demoPoolAllocated.freeList ∧
      q.freeChain 20 = demoPoolAllocated.freeChain 20 ∧
      (∀ a, demoPoolAllocated.IsBlock a → a ≠ 4672 → q.next a = demoPoolAllocated.next a) ∧
      q.pool = demoPoolAllocated.pool ∧ q.blockSize = demoPoolAllocated.blockSize ∧
      q.blockCount = demoPoolAllocated.blockCount :=
  ⟨by decide, by decide, by decide, by decide, by decide, by decide, by decide,
    (deallocate_then_allocate_returns_block demoPoolAllocated 4672 20 (by decide) (by decide)
      (by decide) (by decide) (by decide) (by decide)).1⟩

/-- C14: `deallocate` leaves the whole pool state as it is when it is given the
null pointer or an address outside `[pool, pool + blockSize * blockCount)`. -/
theorem deallocate_outside_is_noop (p : MemoryPool) (ptr : Nat)
    (h : ptr = 0 ∨ ptr < p.pool ∨ p.pool + p.blockSize * p.blockCount ≤ ptr) :
    p.deallocate ptr = p := by
  unfold MemoryPool.deallocate
  by_cases h0 : ptr = 0
  · simp [h0]
  · have hle : (p.blockSize * p.blockCount) % 2 ^ 64 ≤ p.blockSize * p.blockCount :=
      Nat.mod_le _ _
    have hout : ptr < p.pool ∨ ptr ≥ p.pool + (p.blockSize * p.blockCount) % 2 ^ 64 := by
      omega
    simp only [h0, if_false, hout, if_true]

/-- C14 on the pool of `demonstrateMemoryPool`: an address below the pool and
the address just past its end. -/
theorem deallocate_outside_is_noop_witness :
    ((100 : Nat) = 0 ∨ 100 < demoPool.pool ∨
      demoPool.pool + demoPool.blockSize * demoPool.blockCount ≤ 100) ∧
    demoPool.deallocate 100 = demoPool ∧
    (demoPool.deallocate 4736).freeChain 20 = demoPool.freeChain 20 :=
  ⟨by decide, deallocate_outside_is_noop demoPool 100 (by decide), by decide⟩

/-! ## `is_prime` -/

theorem noDivisorFrom_sound (n : Nat) : ∀ (k lo : Nat), noDivisorFrom n k lo = true →
    ∀ m, lo ≤ m → m < lo + 2 ^ k → 2 ≤ m → n % m ≠ 0
  | 0, lo, h, m, h1, h2, h3 => by
    have : m = lo := by omega
    subst this
    intro hc
    rw [noDivisorFrom, hc] at h
    have hle : Nat.ble m 1 = false := by
      rw [Bool.eq_false_iff, ne_eq, Nat.ble_eq]
      omega
    rw [hle] at h
    exact absurd h (by decide)
  | k + 1, lo, h, m, h1, h2, h3 => by
    simp only [noDivisorFrom, Bool.and_eq_true] at h
    by_cases hm : m < lo + 2 ^ k
    · exact noDivisorFrom_sound n k lo h.1 m h1 hm h3
    · exact noDivisorFrom_sound n k (lo + 2 ^ k) h.2 m (by omega)
        (by rw [pow_succ] at h2; omega) h3

theorem noDivisor_4294967291 : noDivisorFrom 4294967291 16 0 = true := by decide!

theorem prime_4294967291 : Nat.Prime 4294967291 := by
  rw [Nat.prime_def_le_sqrt]
  refine ⟨by norm_num, ?_⟩
  intro m hm hs hd
  have h2 : m * m ≤ 4294967291 := Nat.le_sqrt.mp hs
  have hlt : m < 65536 := by
    by_contra hc
    have h1 : 65536 ≤ m := by omega
    nlinarith
  exact noDivisorFrom_sound 4294967291 16 0 noDivisor_4294967291 m (Nat.zero_le _)
    (by norm_num; exact hlt) hm (Nat.mod_eq_zero_of_dvd hd)

/-- No square is congruent to -1, -2, -3 or -4 modulo 2^32: the wrapped
`divisor * divisor` never exceeds 2^32 - 5. -/
theorem wrapped_square_le (d : Nat) : (d * d) % 2 ^ 32 ≤ 4294967291 := by
  have h16 : ((d * d) % 2 ^ 32) % 16 = ((d % 16) * (d % 16)) % 16 := by
    rw [Nat.mod_mod_of_dvd _ (by norm_num : 16 ∣ 2 ^ 32), Nat.mul_mod]
  have hlt : (d * d) % 2 ^ 32 < 2 ^ 32 := Nat.mod_lt _ (by norm_num)
  have hr : d % 16 < 16 := Nat.mod_lt _ (by norm_num)
  generalize (d * d) % 2 ^ 32 = x at h16 hlt
  generalize d % 16 = r at h16 hr
  interval_cases r <;> omega

/-- When the wrapped square never exceeds `n`, the recursion runs on to the
first divisor of `n`, at the latest `n` itself, and answers `false`. -/
theorem is_prime_false_of_no_square {n : Nat} (hn : 2 ≤ n) (hn32 : n < 2 ^ 32)
    (hsq : ∀ d, (d * d) % 2 ^ 32 ≤ n) :
    ∀ (k d fuel : Nat), 2 ≤ d → d + k = n → k < fuel →
      TemplateMetaprogramming.is_prime fuel n d = some false
  | 0, d, fuel, hd, hk, hf => by
    obtain ⟨f, rfl⟩ : ∃ f, fuel = f + 1 := ⟨fuel - 1, by omega⟩
    have hdn : d = n := by omega
    subst hdn
    have h1 : ¬ d < 2 := by omega
    have h2 : ¬ (d * d) % 2 ^ 32 > d := by have := hsq d; omega
    have h3 : ¬ d = 0 := by omega
    rw [TemplateMetaprogramming.is_prime]
    simp only [h1, h2, h3, if_false, Nat.mod_self, if_true]
  | k + 1, d, fuel, hd, hk, hf => by
    obtain ⟨f, rfl⟩ : ∃ f, fuel = f + 1 := ⟨fuel - 1, by omega⟩
    have h1 : ¬ n < 2 := by omega
    have h2 : ¬ (d * d) % 2 ^ 32 > n := by have := hsq d; omega
    have h3 : ¬ d = 0 := by omega
    have h4 : (d + 1) % 2 ^ 32 = d + 1 := Nat.mod_eq_of_lt (by omega)
    rw [TemplateMetaprogramming.is_prime]
    simp only [h1, h2, h3, if_false, h4]
    split
    · rfl
    · exact is_prime_false_of_no_square hn hn32 hsq k (d + 1) f (by omega) (by omega) (by omega)

/-- C19, failing input: 4294967291 = 2^32 - 5 is prime, but for this `n` the
product `divisor * divisor` taken modulo 2^32 never exceeds `n`, so
`is_prime(n)` recurses until `divisor == n` and returns `false`.  The calls of
`demonstrateConstexpr` give `is_prime(17) == true` and
`is_prime(15) == false`. -/
theorem is_prime_wraps_on_large_prime :
    Nat.Prime 4294967291 ∧ 4294967291 < 2 ^ 32 ∧
    (∀ fuel, 4294967290 ≤ fuel →
      TemplateMetaprogramming.is_prime fuel 4294967291 2 = some false) ∧
    TemplateMetaprogramming.is_prime 10 17 2 = some true ∧
    TemplateMetaprogramming.is_prime 10 15 2 = some false := by
  refine ⟨prime_4294967291, by norm_num, ?_, by decide, by decide⟩
  intro fuel hf
  exact is_prime_false_of_no_square (by norm_num) (by norm_num) wrapped_square_le
    4294967289 2 fuel (le_refl _) (by norm_num) (by omega)
